import Mathlib

/-!
The standard Bloom filter of `bloom_filter/bloom_filter.h`.

A shallow embedding of the class `bloom_filter`:

* the object is a record of its six data members; `bits` is a pointer, so it is
  `none` (NULL) or `some bs` with `bs` the bytes of the allocated array;
* `uint64_t` values are natural numbers reduced `% 2 ^ 64`, `uint8_t` values are
  natural numbers reduced `% 256`, `int` values are integers;
* a member function that can dereference NULL, index outside the array or divide
  by zero returns an `Option`: `none` stands for that undefined behaviour;
* a key `(const char* str, int len)` is the list of the `len` `char` values read
  from `str` (each an integer, negative for a signed `char` above 127).
-/

namespace BloomFilter

/-! ## Constants -/

/-- `#define BLOOM_FILTER_ITEM_MAXN_LARGE (1 << 24)`. -/
def BLOOM_FILTER_ITEM_MAXN_LARGE : Nat := 1 <<< 24

/-- `#define BLOOM_FILTER_BYTE_MAXN_LARGE (1 << 28)`. -/
def BLOOM_FILTER_BYTE_MAXN_LARGE : Nat := 1 <<< 28

/-- Conversion of an integer value to `uint64_t`: reduction modulo `2 ^ 64`. -/
def toU64 (x : Int) : Nat := (x % 2 ^ 64).toNat

set_option linter.dupNamespace false

/-! ## The object -/

/-- Data members of `class bloom_filter`, in the order of the private section. -/
structure bloom_filter where
  /-- `uint8_t* bits`: NULL, or the allocated byte array. -/
  bits : Option (List Nat)
  /-- `std::atomic<uint64_t> ucount`: number of items. -/
  ucount : Nat
  /-- `uint64_t usize`: number of bytes. -/
  usize : Nat
  /-- `uint64_t uhashmax`: number of bit positions. -/
  uhashmax : Nat
  /-- `uint64_t uitemmax`: the maximal number of items. -/
  uitemmax : Nat
  /-- `int hnum`: number of hash functions. -/
  hnum : Int
deriving DecidableEq, Repr

/-- The constructor `bloom_filter()`: its body is `bits = NULL;` and nothing else, so
the other members keep the indeterminate values of the memory the object is built
in, here the members of `indet`. -/
def bloom_filter.bloom_filter (indet : bloom_filter) : bloom_filter :=
  { indet with bits := none }

/-! ## Hash functions -/

/-- `BKDRHash(str, len)`: `hash = 0; seed = 131;` then for each char
`hash += hash * seed + *(str+i);` in `uint64_t` arithmetic. -/
def BKDRHash (str : List Int) : Nat :=
  str.foldl (fun hash c => toU64 ((hash : Int) + ((hash : Int) * 131 + c))) 0

/-- `DJBHash(str, len)`: `hash = 5381;` then for each char
`hash += (hash << 5) + (*str++);` in `uint64_t` arithmetic. -/
def DJBHash (str : List Int) : Nat :=
  str.foldl (fun hash c => toU64 ((hash : Int) + (((hash <<< 5 : Nat) : Int) + c))) 5381

/-! ## Bit store -/

/-- `bloom_filter_set_bit(index)`: `bits[index >> 3] |= (0x1 << (index & 7));`.
Undefined when `bits` is NULL or `index >> 3` is outside the array. -/
def bloom_filter_set_bit (bf : bloom_filter) (index : Nat) : Option bloom_filter :=
  match bf.bits with
  | none => none
  | some bs =>
    match bs[index >>> 3]? with
    | none => none
    | some b =>
      some { bf with bits := some (bs.set (index >>> 3) ((b ||| (1 <<< (index &&& 7))) % 256)) }

/-- `bloom_filter_get_bit(index)`: `return bits[index >> 3] & (0x1 << (index & 7));`.
Undefined when `bits` is NULL or `index >> 3` is outside the array. -/
def bloom_filter_get_bit (bf : bloom_filter) (index : Nat) : Option Nat :=
  match bf.bits with
  | none => none
  | some bs =>
    match bs[index >>> 3]? with
    | none => none
    | some b => some (b &&& (1 <<< (index &&& 7)))

/-! ## Insertion and query -/

/-- The expression `(hash_key1 + i * hash_key2) % uhashmax` of both loops, in
`uint64_t` arithmetic (`i` is converted to `uint64_t`); undefined when `uhashmax` is 0. -/
def hash_value (bf : bloom_filter) (hash_key1 hash_key2 i : Nat) : Option Nat :=
  if bf.uhashmax = 0 then none
  else some ((hash_key1 + i * hash_key2) % 2 ^ 64 % bf.uhashmax)

/-- One iteration of the loop of `bloom_filter_set`. -/
def set_step (hash_key1 hash_key2 : Nat) (bf : bloom_filter) (i : Nat) : Option bloom_filter :=
  match hash_value bf hash_key1 hash_key2 i with
  | none => none
  | some hv => bloom_filter_set_bit bf hv

/-- The loop `for (int i = 0; i < hnum; i++)` of `bloom_filter_set`, run over the
values `is` of `i`. -/
def set_loop (hash_key1 hash_key2 : Nat) : bloom_filter → List Nat → Option bloom_filter
  | bf, [] => some bf
  | bf, i :: is =>
    match set_step hash_key1 hash_key2 bf i with
    | none => none
    | some bf1 => set_loop hash_key1 hash_key2 bf1 is

/-- `bloom_filter_set(str, len)`: the returned `int` and the object afterwards. -/
def bloom_filter_set (bf : bloom_filter) (str : List Int) : Option (Int × bloom_filter) :=
  if bf.ucount ≥ bf.uitemmax then some (0, bf)
  else
    let bf1 := { bf with ucount := (bf.ucount + 1) % 2 ^ 64 }
    let hash_key1 := BKDRHash str
    let hash_key2 := DJBHash str
    match set_loop hash_key1 hash_key2 bf1 (List.range bf1.hnum.toNat) with
    | none => none
    | some bf2 => some (1, bf2)

/-- The loop `for (n = 0; n < hnum; n++) { ...; if (!get_bit(hash_value)) break; }` of
`bloom_filter_get`, started at `n` with `left` iterations to go (`left` is
`hnum - n` when that is positive, else 0); the result is the final value of `n`. -/
def get_loop (bf : bloom_filter) (hash_key1 hash_key2 : Nat) : Nat → Nat → Option Nat
  | n, 0 => some n
  | n, left + 1 =>
    match hash_value bf hash_key1 hash_key2 n with
    | none => none
    | some hv =>
      match bloom_filter_get_bit bf hv with
      | none => none
      | some v => if v = 0 then some n else get_loop bf hash_key1 hash_key2 (n + 1) left

/-- `bloom_filter_get(str, len)`: `return (n == hnum) ? 1 : 0;` after the loop. -/
def bloom_filter_get (bf : bloom_filter) (str : List Int) : Option Int :=
  let hash_key1 := BKDRHash str
  let hash_key2 := DJBHash str
  match get_loop bf hash_key1 hash_key2 0 bf.hnum.toNat with
  | none => none
  | some n => some (if (n : Int) = bf.hnum then 1 else 0)

/-! ## Initialisation -/

/-- `bloom_filter_init(pro, nmax, hash)`: the returned `int` and the object afterwards.

* `plan pro nmax hash` is the value of `ceil(s * nmax)` of the branch
  `COMPUTE_THE_STORAGE_SPACE`, a `double` computation, taken as a parameter; it is
  stored in the `uint64_t m`. (The other branch reads a table `s_scale` whose
  entries the source leaves out; everything proved for all `plan` needs only that
  some `uint64_t m` is computed before the members are assigned.)
* `mem i` is the indeterminate content of byte `i` of the array returned by
  `new uint8_t[usize]`, which is not value-initialised. -/
def bloom_filter_init (plan : Nat → Nat → Int → Nat) (mem : Nat → Nat) (bf : bloom_filter)
    (pro : Nat) (nmax : Nat) (hash : Int) : Int × bloom_filter :=
  if bf.bits.isSome then (0, bf)
  else if nmax > BLOOM_FILTER_ITEM_MAXN_LARGE then (0, bf)
  else
    let m := plan pro nmax hash % 2 ^ 64
    let bf1 := { bf with hnum := hash, uhashmax := m, uitemmax := nmax, usize := (m >>> 3) + 1 }
    if bf1.usize > BLOOM_FILTER_BYTE_MAXN_LARGE then (0, bf1)
    else (1, { bf1 with bits := some ((List.range bf1.usize).map (fun i => mem i % 256)) })

/-! ## Capacity planning in exact real arithmetic -/

/-- The scale `s` of `bloom_filter_init` under `COMPUTE_THE_STORAGE_SPACE`,
`k = hash; p = 1 / (1 << pro); c = pow(p, 1 / k); s = (k + k) / (c + c + c * c)`,
read in exact real arithmetic (`1 << pro` is `2 ^ pro` for the `int` shifts that do
not overflow, `pro ≤ 30`). -/
noncomputable def plan_scale (pro : Nat) (hash : Int) : ℝ :=
  let k : ℝ := (hash : ℝ)
  let p : ℝ := (1 : ℝ) / Nat.cast (1 <<< pro)
  let c : ℝ := p ^ ((1 : ℝ) / k)
  (k + k) / (c + c + c * c)

/-- The width `m = ceil(s * nmax)` in exact real arithmetic. -/
noncomputable def plan_width (pro : Nat) (nmax : Nat) (hash : Int) : Nat :=
  ⌈plan_scale pro hash * (nmax : ℝ)⌉₊

/-! ## Derived notions used in the statements -/

/-- A ready filter: backing storage of `(uhashmax >> 3) + 1` bytes and `uhashmax > 0`. -/
def ready (bf : bloom_filter) : Bool :=
  match bf.bits with
  | none => false
  | some bs => bs.length == (bf.uhashmax >>> 3) + 1 && decide (0 < bf.uhashmax)

/-- Bit `index` of the array is set: `bloom_filter_get_bit(index)` is defined and nonzero. -/
def bit_is_set (bf : bloom_filter) (index : Nat) : Bool :=
  match bloom_filter_get_bit bf index with
  | none => false
  | some v => v != 0

/-- A sequence of `bloom_filter_set` calls, one for each key of the list in order:
the list of returned values and the object afterwards. -/
def set_all : bloom_filter → List (List Int) → Option (List Int × bloom_filter)
  | bf, [] => some ([], bf)
  | bf, str :: strs =>
    match bloom_filter_set bf str with
    | none => none
    | some (r, bf1) =>
      match set_all bf1 strs with
      | none => none
      | some (rs, bf2) => some (r :: rs, bf2)

/-- The six supported probability classes of `TYPE_PROBABILITY`. -/
def supported_class (pro : Nat) : Bool :=
  pro == 3 || pro == 6 || pro == 10 || pro == 13 || pro == 16 || pro == 20

/-- The members other than the bit contents agree, and so does the array length. -/
def same_shape (bf bf' : bloom_filter) : Prop :=
  bf'.ucount = bf.ucount ∧ bf'.usize = bf.usize ∧ bf'.uhashmax = bf.uhashmax ∧
    bf'.uitemmax = bf.uitemmax ∧ bf'.hnum = bf.hnum ∧
    bf'.bits.map List.length = bf.bits.map List.length

/-- Bit `index` is set in a byte that is a proper `uint8_t` value. -/
def stable (bf : bloom_filter) (index : Nat) : Prop :=
  ∃ bs b, bf.bits = some bs ∧ bs[index >>> 3]? = some b ∧ b < 256 ∧
    b.testBit (index &&& 7) = true

/-- The calls `bloom_filter_set_bit(p)` for the positions `p` of a list, in order. -/
def set_bits : bloom_filter → List Nat → Option bloom_filter
  | bf, [] => some bf
  | bf, p :: ps =>
    match bloom_filter_set_bit bf p with
    | none => none
    | some bf1 => set_bits bf1 ps

/-- The positions the loops of `bloom_filter_set` and `bloom_filter_get` derive for a
key: `(hash_key1 + i * hash_key2) % uhashmax` for `i = 0, ..., hnum - 1`. -/
def key_positions (bf : bloom_filter) (str : List Int) : List Nat :=
  (List.range bf.hnum.toNat).map
    (fun i => (BKDRHash str + i * DJBHash str) % 2 ^ 64 % bf.uhashmax)

/-- The sign of the width computation: for a hash count that is not positive the
scale `(k + k) / (c + c + c * c)` is not positive (`c` is a positive power), so
`ceil(s * nmax)` is not positive and the `uint64_t m` it is stored in is 0. -/
def width_zero_without_hashes (plan : Nat → Nat → Int → Nat) : Prop :=
  ∀ pro nmax hash, hash ≤ 0 → plan pro nmax hash % 2 ^ 64 = 0

/-- A filter the code builds: the object after a `bloom_filter_init` that returned 1
(on any object, with any content of the allocated memory) followed by a sequence of
`bloom_filter_set` calls. The members are private, so these are the states a ready
filter can be in. -/
def built (plan : Nat → Nat → Int → Nat) (bf : bloom_filter) : Prop :=
  ∃ (mem : Nat → Nat) (bf0 : bloom_filter) (pro nmax : Nat) (hash : Int)
    (strs : List (List Int)) (rs : List Int),
    (bloom_filter_init plan mem bf0 pro nmax hash).1 = 1 ∧
      set_all (bloom_filter_init plan mem bf0 pro nmax hash).2 strs = some (rs, bf)

/-! ## Bit-level facts -/

theorem and_mask_ne_zero (b k : Nat) : (b &&& (1 <<< k)) ≠ 0 ↔ b.testBit k = true := by
  rw [Nat.one_shiftLeft]
  constructor
  · intro h
    by_contra hb
    apply h
    apply Nat.eq_of_testBit_eq
    intro i
    simp only [Nat.testBit_and, Nat.testBit_two_pow, Nat.zero_testBit]
    by_cases hik : k = i
    · subst hik; simp [hb]
    · simp [hik]
  · intro hb h
    have := congrArg (fun x => x.testBit k) h
    simp [Nat.testBit_and, Nat.testBit_two_pow, hb] at this

theorem or_mask_testBit (b k j : Nat) :
    ((b ||| (1 <<< k)) % 256).testBit j = (decide (j < 8) && (b.testBit j || decide (k = j))) := by
  rw [Nat.one_shiftLeft, show (256 : Nat) = 2 ^ 8 by norm_num, Nat.testBit_mod_two_pow,
    Nat.testBit_or, Nat.testBit_two_pow]

theorem or_mask_absorb (b k : Nat) (hb : b < 256) (hk : b.testBit k = true) :
    (b ||| (1 <<< k)) % 256 = b := by
  apply Nat.eq_of_testBit_eq
  intro i
  rw [or_mask_testBit]
  by_cases hi : i < 8
  · by_cases hki : k = i
    · subst hki; simp [hk, hi]
    · simp [hi, hki]
  · have : b.testBit i = false := by
      apply Nat.testBit_lt_two_pow
      calc b < 256 := hb
        _ = 2 ^ 8 := by norm_num
        _ ≤ 2 ^ i := Nat.pow_le_pow_right (by norm_num) (by omega)
    simp [hi, this]

theorem and_seven_lt (i : Nat) : i &&& 7 < 8 := by
  have := Nat.and_le_right (n := i) (m := 7)
  omega

theorem index_split (i j : Nat) (h1 : i >>> 3 = j >>> 3) (h2 : i &&& 7 = j &&& 7) : i = j := by
  have e1 : i &&& 7 = i % 8 := by
    have := Nat.and_pow_two_sub_one_eq_mod i 3
    simpa using this
  have e2 : j &&& 7 = j % 8 := by
    have := Nat.and_pow_two_sub_one_eq_mod j 3
    simpa using this
  rw [Nat.shiftRight_eq_div_pow, Nat.shiftRight_eq_div_pow] at h1
  omega

/-! ## The bit store on the object -/

theorem bit_is_set_iff (bf : bloom_filter) (index : Nat) :
    bit_is_set bf index = true ↔
      ∃ bs b, bf.bits = some bs ∧ bs[index >>> 3]? = some b ∧ b.testBit (index &&& 7) = true := by
  unfold bit_is_set bloom_filter_get_bit
  cases hb : bf.bits with
  | none => simp
  | some bs =>
    cases hg : bs[index >>> 3]? with
    | none => simp [hg]
    | some b =>
      simp only [bne_iff_ne, ne_eq, Option.some.injEq, exists_and_left, exists_eq_left', hg]
      exact and_mask_ne_zero b (index &&& 7)

theorem set_bit_eq_some {bf bf' : bloom_filter} {index : Nat}
    (h : bloom_filter_set_bit bf index = some bf') :
    ∃ bs b, bf.bits = some bs ∧ bs[index >>> 3]? = some b ∧
      bf' = { bf with bits := some (bs.set (index >>> 3) ((b ||| (1 <<< (index &&& 7))) % 256)) } := by
  unfold bloom_filter_set_bit at h
  cases hb : bf.bits with
  | none => simp [hb] at h
  | some bs =>
    cases hg : bs[index >>> 3]? with
    | none => simp [hb, hg] at h
    | some b =>
      simp only [hb, hg, Option.some.injEq] at h
      exact ⟨bs, b, rfl, hg, h.symm⟩

theorem set_bit_defined {bf : bloom_filter} {bs : List Nat} {index : Nat}
    (hb : bf.bits = some bs) (hi : index >>> 3 < bs.length) :
    ∃ bf', bloom_filter_set_bit bf index = some bf' := by
  unfold bloom_filter_set_bit
  simp [hb, List.getElem?_eq_getElem hi]

/-- After `bloom_filter_set_bit(index)` exactly the old bits and bit `index` are set. -/
theorem set_bit_bit_is_set {bf bf' : bloom_filter} {index : Nat}
    (h : bloom_filter_set_bit bf index = some bf') (j : Nat) :
    bit_is_set bf' j = true ↔ (bit_is_set bf j = true ∨ j = index) := by
  obtain ⟨bs, b, hb, hg, rfl⟩ := set_bit_eq_some h
  have hlt : index >>> 3 < bs.length := by
    rcases List.getElem?_eq_some_iff.mp hg with ⟨hl, _⟩
    exact hl
  rw [bit_is_set_iff, bit_is_set_iff]
  simp only [hb, Option.some.injEq, exists_and_left, exists_eq_left']
  by_cases hbyte : index >>> 3 = j >>> 3
  · rw [← hbyte, List.getElem?_set_self hlt, hg]
    simp only [Option.some.injEq, exists_eq_left']
    rw [or_mask_testBit]
    have h8 := and_seven_lt j
    by_cases hbit : index &&& 7 = j &&& 7
    · have : j = index := (index_split _ _ hbyte hbit).symm
      simp [h8, hbit, this]
    · have : j ≠ index := by
        intro hji; apply hbit; rw [hji]
      simp [h8, hbit, this]
  · rw [List.getElem?_set_ne hbyte]
    have : j ≠ index := by
      intro hji; apply hbyte; rw [hji]
    simp [this]

/-! ## Frame of the loops -/

theorem same_shape_refl (bf : bloom_filter) : same_shape bf bf :=
  ⟨rfl, rfl, rfl, rfl, rfl, rfl⟩

theorem same_shape_trans {bf bf1 bf2 : bloom_filter} (hfst : same_shape bf bf1)
    (hsnd : same_shape bf1 bf2) : same_shape bf bf2 :=
  ⟨hsnd.1.trans hfst.1, hsnd.2.1.trans hfst.2.1, hsnd.2.2.1.trans hfst.2.2.1,
    hsnd.2.2.2.1.trans hfst.2.2.2.1, hsnd.2.2.2.2.1.trans hfst.2.2.2.2.1,
    hsnd.2.2.2.2.2.trans hfst.2.2.2.2.2⟩

theorem ready_iff (bf : bloom_filter) :
    ready bf = true ↔
      ∃ bs, bf.bits = some bs ∧ bs.length = (bf.uhashmax >>> 3) + 1 ∧ 0 < bf.uhashmax := by
  unfold ready
  cases hb : bf.bits with
  | none => simp
  | some bs => simp

theorem ready_of_same_shape {bf bf' : bloom_filter} (h : same_shape bf bf')
    (hr : ready bf = true) : ready bf' = true := by
  obtain ⟨bs, hb, hl, hm⟩ := (ready_iff bf).mp hr
  obtain ⟨_, _, h3, _, _, h6⟩ := h
  rw [hb] at h6
  cases hb' : bf'.bits with
  | none => simp [hb'] at h6
  | some bs' =>
    simp only [hb', Option.map_some', Option.some.injEq] at h6
    exact (ready_iff bf').mpr ⟨bs', hb', by rw [h6, hl, h3], by rw [h3]; exact hm⟩

theorem set_bit_same_shape {bf bf' : bloom_filter} {index : Nat}
    (h : bloom_filter_set_bit bf index = some bf') : same_shape bf bf' := by
  obtain ⟨bs, b, hb, _, rfl⟩ := set_bit_eq_some h
  refine ⟨rfl, rfl, rfl, rfl, rfl, ?_⟩
  simp [hb]

theorem shift_lt_of_ready {bf : bloom_filter} {bs : List Nat}
    (hl : bs.length = (bf.uhashmax >>> 3) + 1) {index : Nat} (hi : index < bf.uhashmax) :
    index >>> 3 < bs.length := by
  rw [hl, Nat.shiftRight_eq_div_pow, Nat.shiftRight_eq_div_pow]
  have : index / 2 ^ 3 ≤ bf.uhashmax / 2 ^ 3 := Nat.div_le_div_right (Nat.le_of_lt hi)
  omega

theorem hash_value_ready {bf : bloom_filter} (hr : ready bf = true) (k1 k2 i : Nat) :
    hash_value bf k1 k2 i = some ((k1 + i * k2) % 2 ^ 64 % bf.uhashmax) := by
  obtain ⟨bs, _, _, hm⟩ := (ready_iff bf).mp hr
  unfold hash_value
  rw [if_neg (by omega)]

theorem set_step_ready {bf : bloom_filter} (hr : ready bf = true) (k1 k2 i : Nat) :
    ∃ bf', set_step k1 k2 bf i = some bf' ∧
      bloom_filter_set_bit bf ((k1 + i * k2) % 2 ^ 64 % bf.uhashmax) = some bf' := by
  obtain ⟨bs, hb, hl, hm⟩ := (ready_iff bf).mp hr
  have hlt : (k1 + i * k2) % 2 ^ 64 % bf.uhashmax < bf.uhashmax := Nat.mod_lt _ hm
  obtain ⟨bf', hs⟩ := set_bit_defined hb (shift_lt_of_ready hl hlt)
  refine ⟨bf', ?_, hs⟩
  unfold set_step
  rw [hash_value_ready hr]
  exact hs

/-- The loop of `bloom_filter_set` on a ready filter: it terminates normally, keeps
the shape, and sets exactly the derived positions on top of the old bits. -/
theorem set_loop_ready (k1 k2 : Nat) (is : List Nat) :
    ∀ bf : bloom_filter, ready bf = true →
      ∃ bf', set_loop k1 k2 bf is = some bf' ∧ same_shape bf bf' ∧ ready bf' = true ∧
        ∀ j, bit_is_set bf' j = true ↔
          (bit_is_set bf j = true ∨ ∃ i ∈ is, (k1 + i * k2) % 2 ^ 64 % bf.uhashmax = j) := by
  induction is with
  | nil =>
    intro bf hr
    exact ⟨bf, rfl, same_shape_refl bf, hr, by simp⟩
  | cons i is ih =>
    intro bf hr
    obtain ⟨bf1, hstep, hbit⟩ := set_step_ready hr k1 k2 i
    have hs1 := set_bit_same_shape hbit
    have hr1 := ready_of_same_shape hs1 hr
    obtain ⟨bf2, hloop, hs2, hr2, hset⟩ := ih bf1 hr1
    refine ⟨bf2, ?_, same_shape_trans hs1 hs2, hr2, ?_⟩
    · simp only [set_loop, hstep, hloop]
    · intro j
      rw [hset j, set_bit_bit_is_set hbit j, hs1.2.2.1]
      simp only [List.mem_cons, exists_eq_or_imp]
      constructor
      · rintro ((h | h) | h)
        · exact Or.inl h
        · exact Or.inr (Or.inl h.symm)
        · exact Or.inr (Or.inr h)
      · rintro (h | h | h)
        · exact Or.inl (Or.inl h)
        · exact Or.inl (Or.inr h.symm)
        · exact Or.inr h

/-- The loop of `bloom_filter_get` on a ready filter: it terminates normally at the
first derived position whose bit is unset, or after all `left` iterations. -/
theorem get_loop_ready {bf : bloom_filter} (hr : ready bf = true) (k1 k2 : Nat) (left : Nat) :
    ∀ n : Nat, ∃ n', get_loop bf k1 k2 n left = some n' ∧ n ≤ n' ∧ n' ≤ n + left ∧
      (∀ i, n ≤ i → i < n' → bit_is_set bf ((k1 + i * k2) % 2 ^ 64 % bf.uhashmax) = true) ∧
      (n' < n + left → bit_is_set bf ((k1 + n' * k2) % 2 ^ 64 % bf.uhashmax) = false) := by
  obtain ⟨bs, hb, hl, hm⟩ := (ready_iff bf).mp hr
  induction left with
  | zero =>
    intro n
    refine ⟨n, rfl, le_refl _, le_refl _, ?_, ?_⟩
    · intro i h1 h2; omega
    · intro h; omega
  | succ left ih =>
    intro n
    have hlt : (k1 + n * k2) % 2 ^ 64 % bf.uhashmax < bf.uhashmax := Nat.mod_lt _ hm
    have hin := shift_lt_of_ready hl hlt
    have hget : bloom_filter_get_bit bf ((k1 + n * k2) % 2 ^ 64 % bf.uhashmax) =
        some (bs[((k1 + n * k2) % 2 ^ 64 % bf.uhashmax) >>> 3] &&&
          (1 <<< (((k1 + n * k2) % 2 ^ 64 % bf.uhashmax) &&& 7))) := by
      unfold bloom_filter_get_bit
      simp only [hb]
      rw [List.getElem?_eq_getElem hin]
    by_cases hv : (bs[((k1 + n * k2) % 2 ^ 64 % bf.uhashmax) >>> 3] &&&
          (1 <<< (((k1 + n * k2) % 2 ^ 64 % bf.uhashmax) &&& 7))) = 0
    · refine ⟨n, ?_, le_refl _, by omega, ?_, ?_⟩
      · simp only [get_loop, hash_value_ready hr, hget, hv, if_true]
      · intro i h1 h2; omega
      · intro _
        simp only [bit_is_set, hget, hv, bne_self_eq_false]
    · obtain ⟨n', hloop, h1, h2, h3, h4⟩ := ih (n + 1)
      refine ⟨n', ?_, by omega, by omega, ?_, ?_⟩
      · simp only [get_loop, hash_value_ready hr, hget, hv, if_false, hloop]
      · intro i hi1 hi2
        by_cases hin' : i = n
        · subst hin'
          simp only [bit_is_set, hget, bne_iff_ne, ne_eq, hv, not_false_eq_true]
        · exact h3 i (by omega) hi2
      · intro hlt'
        exact h4 (by omega)

/-! ## Insertion and query on a ready filter -/

theorem set_rejected {bf : bloom_filter} (h : bf.ucount ≥ bf.uitemmax) (str : List Int) :
    bloom_filter_set bf str = some (0, bf) := by
  unfold bloom_filter_set
  rw [if_pos h]

theorem ready_with_ucount {bf : bloom_filter} (hr : ready bf = true) (c : Nat) :
    ready { bf with ucount := c } = true := by
  obtain ⟨bs, hb, hl, hm⟩ := (ready_iff bf).mp hr
  exact (ready_iff _).mpr ⟨bs, hb, hl, hm⟩

theorem bit_is_set_with_ucount (bf : bloom_filter) (c j : Nat) :
    bit_is_set { bf with ucount := c } j = bit_is_set bf j := rfl

/-- An accepted insert on a ready filter: it returns 1, counts the item, keeps the
configuration, and sets exactly the derived positions on top of the old bits. -/
theorem set_accepted {bf : bloom_filter} (hr : ready bf = true) (h : bf.ucount < bf.uitemmax)
    (str : List Int) :
    ∃ bf', bloom_filter_set bf str = some (1, bf') ∧ ready bf' = true ∧
      bf'.ucount = (bf.ucount + 1) % 2 ^ 64 ∧ bf'.usize = bf.usize ∧
      bf'.uhashmax = bf.uhashmax ∧ bf'.uitemmax = bf.uitemmax ∧ bf'.hnum = bf.hnum ∧
      ∀ j, bit_is_set bf' j = true ↔
        (bit_is_set bf j = true ∨
          ∃ i ∈ List.range bf.hnum.toNat,
            (BKDRHash str + i * DJBHash str) % 2 ^ 64 % bf.uhashmax = j) := by
  obtain ⟨bf', hloop, hs, hr', hset⟩ :=
    set_loop_ready (BKDRHash str) (DJBHash str) (List.range bf.hnum.toNat)
      { bf with ucount := (bf.ucount + 1) % 2 ^ 64 } (ready_with_ucount hr _)
  obtain ⟨s1, s2, s3, s4, s5, _⟩ := hs
  refine ⟨bf', ?_, hr', s1, s2, s3, s4, s5, ?_⟩
  · unfold bloom_filter_set
    rw [if_neg (by omega)]
    simp only [hloop]
  · intro j
    rw [hset j, bit_is_set_with_ucount]

/-- Every insert on a ready filter returns normally with 0 or 1, leaves a ready
filter with the same `hnum` and `uhashmax`, clears no bit, and when it returns 1
all derived positions of its key are set. -/
theorem set_ready {bf : bloom_filter} (hr : ready bf = true) (str : List Int) :
    ∃ r bf', bloom_filter_set bf str = some (r, bf') ∧ (r = 0 ∨ r = 1) ∧ ready bf' = true ∧
      bf'.uhashmax = bf.uhashmax ∧ bf'.hnum = bf.hnum ∧
      (∀ j, bit_is_set bf j = true → bit_is_set bf' j = true) ∧
      (r = 1 → ∀ i, i < bf.hnum.toNat →
        bit_is_set bf' ((BKDRHash str + i * DJBHash str) % 2 ^ 64 % bf.uhashmax) = true) := by
  by_cases h : bf.ucount ≥ bf.uitemmax
  · refine ⟨0, bf, set_rejected h str, Or.inl rfl, hr, rfl, rfl, fun _ hj => hj, ?_⟩
    intro h01
    exact absurd h01 (by decide)
  · obtain ⟨bf', hset, hr', _, _, h3, _, h5, hbits⟩ := set_accepted hr (by omega) str
    refine ⟨1, bf', hset, Or.inr rfl, hr', h3, h5, ?_, ?_⟩
    · intro j hj
      exact (hbits j).mpr (Or.inl hj)
    · intro _ i hi
      exact (hbits _).mpr (Or.inr ⟨i, List.mem_range.mpr hi, rfl⟩)

/-- A sequence of inserts on a ready filter returns normally, leaves a ready filter
with the same `hnum` and `uhashmax`, and clears no bit. -/
theorem set_all_ready (strs : List (List Int)) :
    ∀ bf : bloom_filter, ready bf = true →
      ∃ rs bf', set_all bf strs = some (rs, bf') ∧ ready bf' = true ∧
        bf'.uhashmax = bf.uhashmax ∧ bf'.hnum = bf.hnum ∧
        ∀ j, bit_is_set bf j = true → bit_is_set bf' j = true := by
  induction strs with
  | nil =>
    intro bf hr
    exact ⟨[], bf, rfl, hr, rfl, rfl, fun _ hj => hj⟩
  | cons str strs ih =>
    intro bf hr
    obtain ⟨r, bf1, hset, _, hr1, hm1, hn1, hmono1, _⟩ := set_ready hr str
    obtain ⟨rs, bf2, hall, hr2, hm2, hn2, hmono2⟩ := ih bf1 hr1
    refine ⟨r :: rs, bf2, ?_, hr2, hm2.trans hm1, hn2.trans hn1, ?_⟩
    · simp only [set_all, hset, hall]
    · intro j hj
      exact hmono2 j (hmono1 j hj)

/-- The value of `bloom_filter_get` on a ready filter: 1 when `hnum` is not negative
and every derived position is set, else 0. -/
theorem get_ready {bf : bloom_filter} (hr : ready bf = true) (str : List Int) :
    ∃ r, bloom_filter_get bf str = some r ∧ (r = 0 ∨ r = 1) ∧
      (r = 1 ↔ (0 ≤ bf.hnum ∧ ∀ i, i < bf.hnum.toNat →
        bit_is_set bf ((BKDRHash str + i * DJBHash str) % 2 ^ 64 % bf.uhashmax) = true)) := by
  obtain ⟨n, hloop, _, h2, h3, h4⟩ :=
    get_loop_ready hr (BKDRHash str) (DJBHash str) bf.hnum.toNat 0
  refine ⟨if (n : Int) = bf.hnum then 1 else 0, ?_, ?_, ?_⟩
  · unfold bloom_filter_get
    simp only [hloop]
  · by_cases hn : (n : Int) = bf.hnum
    · right; rw [if_pos hn]
    · left; rw [if_neg hn]
  · constructor
    · intro h1
      have hn : (n : Int) = bf.hnum := by
        by_contra hne
        rw [if_neg hne] at h1
        exact absurd h1 (by decide)
      have hnn : 0 ≤ bf.hnum := by rw [← hn]; exact Int.natCast_nonneg n
      refine ⟨hnn, ?_⟩
      intro i hi
      apply h3 i (Nat.zero_le _)
      omega
    · rintro ⟨hnn, hall⟩
      have hn : n = bf.hnum.toNat := by
        by_contra hne
        have hlt : n < 0 + bf.hnum.toNat := by omega
        have := h4 hlt
        rw [hall n (by omega)] at this
        exact absurd this (by decide)
      rw [if_pos (by omega)]

/-! ## Repeating an insertion -/

theorem stable_after_set_bit {bf bf' : bloom_filter} {index : Nat}
    (h : bloom_filter_set_bit bf index = some bf') : stable bf' index := by
  obtain ⟨bs, b, hb, hg, rfl⟩ := set_bit_eq_some h
  have hlt : index >>> 3 < bs.length := (List.getElem?_eq_some_iff.mp hg).1
  refine ⟨bs.set (index >>> 3) ((b ||| (1 <<< (index &&& 7))) % 256),
    (b ||| (1 <<< (index &&& 7))) % 256, rfl, List.getElem?_set_self hlt,
    Nat.mod_lt _ (by norm_num), ?_⟩
  rw [or_mask_testBit]
  simp [and_seven_lt index]

theorem stable_set_bit {bf bf' : bloom_filter} {index q : Nat}
    (h : bloom_filter_set_bit bf index = some bf') (hq : stable bf q) : stable bf' q := by
  obtain ⟨bs, b, hb, hg, rfl⟩ := set_bit_eq_some h
  obtain ⟨bs0, c, hb0, hg0, hc, hbit⟩ := hq
  rw [hb] at hb0
  cases hb0
  have hlt : index >>> 3 < bs.length := (List.getElem?_eq_some_iff.mp hg).1
  by_cases hbyte : index >>> 3 = q >>> 3
  · refine ⟨bs.set (index >>> 3) ((b ||| (1 <<< (index &&& 7))) % 256),
      (b ||| (1 <<< (index &&& 7))) % 256, rfl, ?_, Nat.mod_lt _ (by norm_num), ?_⟩
    · rw [← hbyte]; exact List.getElem?_set_self hlt
    · rw [hbyte, hg0] at hg
      cases hg
      rw [or_mask_testBit]
      simp [and_seven_lt q, hbit]
  · refine ⟨bs.set (index >>> 3) ((b ||| (1 <<< (index &&& 7))) % 256), c, rfl, ?_, hc, hbit⟩
    rw [List.getElem?_set_ne hbyte]
    exact hg0

theorem list_set_same {l : List Nat} {i a : Nat} (h : l[i]? = some a) : l.set i a = l := by
  have hlt : i < l.length := (List.getElem?_eq_some_iff.mp h).1
  apply List.ext_getElem?
  intro j
  by_cases hij : i = j
  · subst hij
    rw [List.getElem?_set_self hlt, h]
  · rw [List.getElem?_set_ne hij]

theorem set_bit_of_stable {bf : bloom_filter} {index : Nat} (h : stable bf index) :
    bloom_filter_set_bit bf index = some bf := by
  obtain ⟨bs, b, hb, hg, hc, hbit⟩ := h
  unfold bloom_filter_set_bit
  simp only [hb, hg, or_mask_absorb b _ hc hbit]
  rw [list_set_same hg, ← hb]

theorem set_loop_stable (k1 k2 : Nat) (is : List Nat) :
    ∀ bf bf' : bloom_filter, set_loop k1 k2 bf is = some bf' →
      (∀ q, stable bf q → stable bf' q) ∧
      ∀ i ∈ is, stable bf' ((k1 + i * k2) % 2 ^ 64 % bf.uhashmax) := by
  induction is with
  | nil =>
    intro bf bf' h
    simp only [set_loop, Option.some.injEq] at h
    subst h
    exact ⟨fun _ hq => hq, by simp⟩
  | cons i is ih =>
    intro bf bf' h
    simp only [set_loop] at h
    cases hstep : set_step k1 k2 bf i with
    | none => simp [hstep] at h
    | some bf1 =>
      simp only [hstep] at h
      obtain ⟨hkeep, hnew⟩ := ih bf1 bf' h
      unfold set_step hash_value at hstep
      by_cases hm : bf.uhashmax = 0
      · simp [hm] at hstep
      · simp only [hm, if_false] at hstep
        have hshape := set_bit_same_shape hstep
        refine ⟨fun q hq => hkeep q (stable_set_bit hstep hq), ?_⟩
        intro j hj
        rcases List.mem_cons.mp hj with rfl | hj
        · exact hkeep _ (stable_after_set_bit hstep)
        · have := hnew j hj
          rw [hshape.2.2.1] at this
          exact this

theorem set_loop_of_stable (k1 k2 : Nat) (is : List Nat) (bf : bloom_filter)
    (hm : bf.uhashmax ≠ 0)
    (h : ∀ i ∈ is, stable bf ((k1 + i * k2) % 2 ^ 64 % bf.uhashmax)) :
    set_loop k1 k2 bf is = some bf := by
  induction is with
  | nil => rfl
  | cons i is ih =>
    have hstep : set_step k1 k2 bf i = some bf := by
      unfold set_step hash_value
      simp only [hm, if_false]
      exact set_bit_of_stable (h i (List.mem_cons_self _ _))
    simp only [set_loop, hstep]
    exact ih (fun j hj => h j (List.mem_cons_of_mem _ hj))

theorem stable_with_ucount {bf : bloom_filter} {q : Nat} (c : Nat) (h : stable bf q) :
    stable { bf with ucount := c } q := h

theorem get_loop_with_ucount (bf : bloom_filter) (c k1 k2 left : Nat) :
    ∀ n, get_loop { bf with ucount := c } k1 k2 n left = get_loop bf k1 k2 n left := by
  induction left with
  | zero => intro n; rfl
  | succ left ih =>
    intro n
    simp only [get_loop]
    rw [show hash_value { bf with ucount := c } k1 k2 n = hash_value bf k1 k2 n from rfl]
    cases hash_value bf k1 k2 n with
    | none => rfl
    | some hv =>
      simp only []
      rw [show bloom_filter_get_bit { bf with ucount := c } hv = bloom_filter_get_bit bf hv
        from rfl]
      cases bloom_filter_get_bit bf hv with
      | none => rfl
      | some v =>
        simp only [ih]

theorem get_with_ucount (bf : bloom_filter) (c : Nat) (str : List Int) :
    bloom_filter_get { bf with ucount := c } str = bloom_filter_get bf str := by
  unfold bloom_filter_get
  simp only [get_loop_with_ucount]

theorem set_unfold_accept {bf : bloom_filter} (h : ¬ bf.ucount ≥ bf.uitemmax) (str : List Int) :
    bloom_filter_set bf str =
      match set_loop (BKDRHash str) (DJBHash str)
          { bf with ucount := (bf.ucount + 1) % 2 ^ 64 } (List.range bf.hnum.toNat) with
      | none => none
      | some bf2 => some (1, bf2) := by
  unfold bloom_filter_set
  rw [if_neg h]

/-- A second insert of the same key on a ready filter with room for it: it returns 1
and changes nothing but `ucount`. -/
theorem set_twice {bf bf1 : bloom_filter} (hr : ready bf = true) (str : List Int)
    (h1 : bloom_filter_set bf str = some (1, bf1)) (hc : bf1.ucount < bf1.uitemmax) :
    bloom_filter_set bf1 str = some (1, { bf1 with ucount := (bf1.ucount + 1) % 2 ^ 64 }) := by
  obtain ⟨bs, _, _, hm⟩ := (ready_iff bf).mp hr
  by_cases hfull : bf.ucount ≥ bf.uitemmax
  · rw [set_rejected hfull] at h1
    simp at h1
  · rw [set_unfold_accept hfull] at h1
    obtain ⟨bfr, hloop, hshape, _, _⟩ :=
      set_loop_ready (BKDRHash str) (DJBHash str) (List.range bf.hnum.toNat)
        { bf with ucount := (bf.ucount + 1) % 2 ^ 64 } (ready_with_ucount hr _)
    rw [hloop] at h1
    simp only [Option.some.injEq, Prod.mk.injEq, true_and] at h1
    subst h1
    obtain ⟨_, hnew⟩ := set_loop_stable _ _ _ _ _ hloop
    obtain ⟨_, _, s3, _, s5, _⟩ := hshape
    rw [set_unfold_accept (by omega)]
    have s3' : bfr.uhashmax = bf.uhashmax := s3
    have s5' : bfr.hnum = bf.hnum := s5
    rw [set_loop_of_stable]
    · show bfr.uhashmax ≠ 0
      omega
    · intro i hi
      apply stable_with_ucount
      show stable bfr ((BKDRHash str + i * DJBHash str) % 2 ^ 64 % bfr.uhashmax)
      rw [s3']
      apply hnew
      rw [s5'] at hi
      exact hi

/-- The scale as a function of the ratio `c = (1 / 2 ^ pro) ^ (1 / hash)`. -/
theorem plan_scale_eq (pro : Nat) (hash : Int) :
    plan_scale pro hash =
      ((hash : ℝ) + hash) /
        ((1 / (2 : ℝ) ^ pro) ^ (1 / (hash : ℝ)) + (1 / (2 : ℝ) ^ pro) ^ (1 / (hash : ℝ)) +
          (1 / (2 : ℝ) ^ pro) ^ (1 / (hash : ℝ)) * (1 / (2 : ℝ) ^ pro) ^ (1 / (hash : ℝ))) := by
  unfold plan_scale
  simp only [Nat.one_shiftLeft, Nat.cast_pow, Nat.cast_ofNat]

/-- With one hash function the ratio is `p` itself and the scale is rational. -/
theorem plan_scale_hash_one (pro : Nat) :
    plan_scale pro 1 = 2 / (2 / 2 ^ pro + (1 / 2 ^ pro) ^ 2) := by
  rw [plan_scale_eq]
  simp only [Int.cast_one, div_one, Real.rpow_one]
  ring

theorem plan_width_5_8_1 : plan_width 5 8 1 = 253 := by
  unfold plan_width
  rw [plan_scale_hash_one, Nat.ceil_eq_iff (by norm_num)]
  norm_num

theorem plan_width_20_big_1 : plan_width 20 (2 ^ 24) 1 = 17592177655812 := by
  unfold plan_width
  rw [plan_scale_hash_one, Nat.ceil_eq_iff (by norm_num)]
  norm_num

theorem plan_width_3_8_1 : plan_width 3 8 1 = 61 := by
  unfold plan_width
  rw [plan_scale_hash_one, Nat.ceil_eq_iff (by norm_num)]
  norm_num

/-! ## The planned width and the false-positive rate -/

/-- The first two terms of the series of `-log (1 - x)`. -/
theorem two_terms_le_neg_log {x : ℝ} (h0 : 0 ≤ x) (h1 : x < 1) :
    x + x ^ 2 / 2 ≤ -Real.log (1 - x) := by
  have habs : |x| < 1 := by rw [abs_of_nonneg h0]; exact h1
  have hsum := Real.hasSum_pow_div_log_of_abs_lt_one habs
  have hle := sum_le_hasSum (Finset.range 2) (fun i _ => by positivity) hsum
  simp only [Finset.sum_range_succ, Finset.sum_range_zero] at hle
  norm_num at hle
  linarith

/-- The ratio `c = p ^ (1 / k)` for `p = 1 / 2 ^ pro`, `pro ≥ 1` and `k ≥ 1`: it lies
strictly between 0 and 1 and its `k`-th power is `p`. -/
theorem plan_ratio_facts (pro k : Nat) (hpro : 1 ≤ pro) (hk : 1 ≤ k) :
    0 < (1 / (2 : ℝ) ^ pro) ^ (1 / (k : ℝ)) ∧ (1 / (2 : ℝ) ^ pro) ^ (1 / (k : ℝ)) < 1 ∧
      ((1 / (2 : ℝ) ^ pro) ^ (1 / (k : ℝ))) ^ k = 1 / 2 ^ pro := by
  have hp0 : (0 : ℝ) < 1 / 2 ^ pro := by positivity
  have hp1 : (1 : ℝ) / 2 ^ pro < 1 := by
    rw [div_lt_one (by positivity)]
    exact one_lt_pow₀ (by norm_num) (by omega)
  have hk0 : (0 : ℝ) < k := by exact_mod_cast hk
  refine ⟨Real.rpow_pos_of_pos hp0 _, Real.rpow_lt_one hp0.le hp1 (by positivity), ?_⟩
  rw [← Real.rpow_natCast, ← Real.rpow_mul hp0.le, one_div_mul_cancel hk0.ne', Real.rpow_one]

/-- The rate bound behind C9, for every class `pro ≥ 1`. -/
theorem rate_le_target (pro k n : Nat) (hpro : 1 ≤ pro) (hk : 1 ≤ k) (hn : 1 ≤ n) :
    (1 - Real.exp (-((k : ℝ) * (n : ℝ)) / (plan_width pro n (k : Int) : ℝ))) ^ k
      ≤ 1 / 2 ^ pro := by
  obtain ⟨hc0, hc1, hck⟩ := plan_ratio_facts pro k hpro hk
  have hs := plan_scale_eq pro (k : Int)
  simp only [Int.cast_natCast] at hs
  generalize (1 / (2 : ℝ) ^ pro) ^ (1 / (k : ℝ)) = c at hc0 hc1 hck hs
  have hk0 : (0 : ℝ) < k := by exact_mod_cast hk
  have hn0 : (0 : ℝ) < n := by exact_mod_cast hn
  have hden : 0 < c + c + c * c := by positivity
  have hs0 : 0 < plan_scale pro (k : Int) := by rw [hs]; positivity
  have hm : plan_scale pro (k : Int) * n ≤ (plan_width pro n (k : Int) : ℝ) := Nat.le_ceil _
  have hm0 : (0 : ℝ) < (plan_width pro n (k : Int) : ℝ) := lt_of_lt_of_le (by positivity) hm
  have hx : (k : ℝ) * n / (plan_width pro n (k : Int) : ℝ) ≤ c + c ^ 2 / 2 := by
    rw [div_le_iff₀ hm0]
    calc (k : ℝ) * n = (c + c ^ 2 / 2) * (plan_scale pro (k : Int) * n) := by
          rw [hs]; field_simp; ring
      _ ≤ (c + c ^ 2 / 2) * (plan_width pro n (k : Int) : ℝ) :=
          mul_le_mul_of_nonneg_left hm (by positivity)
  have hlog : Real.log (1 - c) ≤ -((k : ℝ) * n) / (plan_width pro n (k : Int) : ℝ) := by
    have := two_terms_le_neg_log hc0.le hc1
    rw [neg_div]
    linarith
  have hexp : 1 - c ≤ Real.exp (-((k : ℝ) * n) / (plan_width pro n (k : Int) : ℝ)) := by
    calc 1 - c = Real.exp (Real.log (1 - c)) := (Real.exp_log (by linarith)).symm
      _ ≤ _ := Real.exp_le_exp.mpr hlog
  have hle1 : Real.exp (-((k : ℝ) * n) / (plan_width pro n (k : Int) : ℝ)) ≤ 1 := by
    rw [Real.exp_le_one_iff, neg_div]
    have : 0 ≤ (k : ℝ) * n / (plan_width pro n (k : Int) : ℝ) := by positivity
    linarith
  calc (1 - Real.exp (-((k : ℝ) * n) / (plan_width pro n (k : Int) : ℝ))) ^ k
      ≤ c ^ k := pow_le_pow_left₀ (by linarith) (by linarith) k
    _ = 1 / 2 ^ pro := hck

/-! ## Counting inserts -/

/-- A sequence of inserts on a ready filter with `ucount ≤ uitemmax`: the calls
return 1 while there is room and 0 afterwards, and `ucount` counts the accepted ones. -/
theorem set_all_counts (strs : List (List Int)) :
    ∀ bf : bloom_filter, ready bf = true → bf.uitemmax < 2 ^ 64 → bf.ucount ≤ bf.uitemmax →
      ∃ bf', set_all bf strs =
          some (List.replicate (min strs.length (bf.uitemmax - bf.ucount)) 1 ++
            List.replicate (strs.length - min strs.length (bf.uitemmax - bf.ucount)) 0, bf') ∧
        bf'.ucount = bf.ucount + min strs.length (bf.uitemmax - bf.ucount) ∧
        bf'.uitemmax = bf.uitemmax := by
  induction strs with
  | nil =>
    intro bf _ _ _
    exact ⟨bf, by simp [set_all], by simp, rfl⟩
  | cons str strs ih =>
    intro bf hr h64 hle
    by_cases hfull : bf.ucount ≥ bf.uitemmax
    · obtain ⟨bf', hall, hc, hN⟩ := ih bf hr h64 hle
      have hz : bf.uitemmax - bf.ucount = 0 := by omega
      rw [hz] at hall hc
      refine ⟨bf', ?_, ?_, hN⟩
      · simp only [set_all, set_rejected hfull, hall, hz]
        simp [List.replicate_succ]
      · rw [hc, hz]; simp
    · obtain ⟨bf1, hset, hr1, hc1, _, _, hN1, _, _⟩ := set_accepted hr (by omega) str
      have hc1' : bf1.ucount = bf.ucount + 1 := by
        rw [hc1]; exact Nat.mod_eq_of_lt (by omega)
      obtain ⟨bf', hall, hc, hN⟩ := ih bf1 hr1 (by omega) (by omega)
      rw [hN1, hc1'] at hall hc
      have hmin : min (strs.length + 1) (bf.uitemmax - bf.ucount) =
          min strs.length (bf.uitemmax - (bf.ucount + 1)) + 1 := by omega
      refine ⟨bf', ?_, ?_, hN.trans hN1⟩
      · simp only [set_all, hset, hall, List.length_cons, hmin, List.replicate_succ,
          List.cons_append, Nat.add_sub_add_right]
      · rw [hc, List.length_cons, hmin]; omega

/-! ## Claims on insertion and query -/

/-- An inserted key is found on a ready state whose `hnum` is not negative: for every
sequence `pre` of inserts, every key and every sequence `post` of further inserts, all
calls return normally, and if the insert of the key returned 1 then
`bloom_filter_get` on the key returns 1 in the state after `post`. -/
theorem inserted_key_is_found (bf : bloom_filter) (pre post : List (List Int)) (key : List Int)
    (hr : ready bf = true) (hn : 0 ≤ bf.hnum) :
    ∃ rs1 bf1, set_all bf pre = some (rs1, bf1) ∧
      ∃ r bf2, bloom_filter_set bf1 key = some (r, bf2) ∧
        ∃ rs3 bf3, set_all bf2 post = some (rs3, bf3) ∧
          (r = 1 → bloom_filter_get bf3 key = some 1) := by
  obtain ⟨rs1, bf1, h1, hr1, hm1, hn1, _⟩ := set_all_ready pre bf hr
  obtain ⟨r, bf2, h2, _, hr2, hm2, hn2, _, hkey⟩ := set_ready hr1 key
  obtain ⟨rs3, bf3, h3, hr3, hm3, hn3, hmono⟩ := set_all_ready post bf2 hr2
  refine ⟨rs1, bf1, h1, r, bf2, h2, rs3, bf3, h3, ?_⟩
  intro hr01
  obtain ⟨g, hg, _, hiff⟩ := get_ready hr3 key
  have : g = 1 := by
    apply hiff.mpr
    refine ⟨by rw [hn3, hn2, hn1]; exact hn, ?_⟩
    intro i hi
    rw [hm3]
    apply hmono
    rw [hm2]
    apply hkey hr01
    rw [hn3, hn2] at hi
    exact hi
  rw [hg, this]

/-- C2: capacity enforcement. On a ready filter with `ucount = 0` and `uitemmax = N`
(a `uint64_t`), a sequence of `j` inserts returns normally, exactly the first
`min j N` calls return 1 and the later ones 0, `ucount` is `min j N` afterwards,
and it does not exceed `uitemmax`. -/
theorem capacity_enforcement (bf : bloom_filter) (strs : List (List Int))
    (hr : ready bf = true) (h0 : bf.ucount = 0) (h64 : bf.uitemmax < 2 ^ 64) :
    ∃ bf', set_all bf strs =
        some (List.replicate (min strs.length bf.uitemmax) 1 ++
          List.replicate (strs.length - min strs.length bf.uitemmax) 0, bf') ∧
      bf'.ucount = min strs.length bf.uitemmax ∧ bf'.uitemmax = bf.uitemmax ∧
      bf'.ucount ≤ bf'.uitemmax := by
  obtain ⟨bf', hall, hc, hN⟩ := set_all_counts strs bf hr h64 (by omega)
  rw [h0] at hall hc
  simp only [Nat.sub_zero, Nat.zero_add] at hall hc
  exact ⟨bf', hall, hc, hN, by rw [hc, hN]; exact Nat.min_le_right _ _⟩

/-- Witness of `capacity_enforcement`: capacity 2 and the three keys "a", "b", "c". -/
theorem capacity_enforcement_witness :
    ready ⟨some [0, 0], 0, 2, 13, 2, 3⟩ = true ∧
    ∃ bf', set_all ⟨some [0, 0], 0, 2, 13, 2, 3⟩ [[97], [98], [99]] = some ([1, 1, 0], bf') ∧
      bf'.ucount = 2 ∧ bf'.uitemmax = 2 ∧ bf'.ucount ≤ bf'.uitemmax :=
  ⟨by decide,
    capacity_enforcement ⟨some [0, 0], 0, 2, 13, 2, 3⟩ [[97], [98], [99]] (by decide) rfl
      (by decide)⟩

/-- C3: a rejected insert is atomic. `bloom_filter_set` returns 0 when
`ucount ≥ uitemmax`, leaving the object as it was; and whenever it returns 0 the
object afterwards is the object before, and `ucount ≥ uitemmax` held. -/
theorem rejected_insert_is_atomic (bf : bloom_filter) (str : List Int) :
    (bf.ucount ≥ bf.uitemmax → bloom_filter_set bf str = some (0, bf)) ∧
      ∀ bf', bloom_filter_set bf str = some (0, bf') → bf' = bf ∧ bf.ucount ≥ bf.uitemmax := by
  refine ⟨fun h => set_rejected h str, ?_⟩
  intro bf' h
  by_cases hfull : bf.ucount ≥ bf.uitemmax
  · rw [set_rejected hfull] at h
    simp only [Option.some.injEq, Prod.mk.injEq, true_and] at h
    exact ⟨h.symm, hfull⟩
  · rw [set_unfold_accept hfull] at h
    cases hloop : set_loop (BKDRHash str) (DJBHash str)
        { bf with ucount := (bf.ucount + 1) % 2 ^ 64 } (List.range bf.hnum.toNat) with
    | none => rw [hloop] at h; simp at h
    | some bf2 => rw [hloop] at h; simp at h

/-- C8: idempotent insertion. On a ready filter with `ucount + 2 ≤ uitemmax`
(`uitemmax` a `uint64_t`), inserting a key twice returns 1 both times, raises `ucount`
by 2, leaves the bit array of the single insertion, gives the same
`bloom_filter_get` answer for every key as after one insertion, and keeps every bit
that was set before. -/
theorem idempotent_insertion (bf : bloom_filter) (key : List Int) (hr : ready bf = true)
    (hc : bf.ucount + 2 ≤ bf.uitemmax) (h64 : bf.uitemmax < 2 ^ 64) :
    ∃ bf1 bf2, bloom_filter_set bf key = some (1, bf1) ∧
      bloom_filter_set bf1 key = some (1, bf2) ∧
      bf1.ucount = bf.ucount + 1 ∧ bf2.ucount = bf.ucount + 2 ∧ bf2.bits = bf1.bits ∧
      (∀ str, bloom_filter_get bf2 str = bloom_filter_get bf1 str) ∧
      (∀ j, bit_is_set bf j = true → bit_is_set bf1 j = true ∧ bit_is_set bf2 j = true) := by
  obtain ⟨bf1, hset, _, hc1, _, _, hN1, _, hbits⟩ := set_accepted hr (by omega) key
  have hc1' : bf1.ucount = bf.ucount + 1 := by
    rw [hc1]; exact Nat.mod_eq_of_lt (by omega)
  have h2 := set_twice hr key hset (by omega)
  refine ⟨bf1, _, hset, h2, hc1', ?_, rfl, ?_, ?_⟩
  · show (bf1.ucount + 1) % 2 ^ 64 = bf.ucount + 2
    rw [hc1']; exact Nat.mod_eq_of_lt (by omega)
  · intro str
    exact get_with_ucount bf1 _ str
  · intro j hj
    have : bit_is_set bf1 j = true := (hbits j).mpr (Or.inl hj)
    exact ⟨this, this⟩

/-- Witness of `idempotent_insertion`: a two-byte filter with room for four items and
the key "a". -/
theorem idempotent_insertion_witness :
    ready ⟨some [0, 0], 0, 2, 13, 4, 3⟩ = true ∧
    ∃ bf1 bf2, bloom_filter_set ⟨some [0, 0], 0, 2, 13, 4, 3⟩ [97] = some (1, bf1) ∧
      bloom_filter_set bf1 [97] = some (1, bf2) ∧
      bf1.ucount = 0 + 1 ∧ bf2.ucount = 0 + 2 ∧ bf2.bits = bf1.bits ∧
      (∀ str, bloom_filter_get bf2 str = bloom_filter_get bf1 str) ∧
      (∀ j, bit_is_set ⟨some [0, 0], 0, 2, 13, 4, 3⟩ j = true →
        bit_is_set bf1 j = true ∧ bit_is_set bf2 j = true) :=
  ⟨by decide,
    idempotent_insertion ⟨some [0, 0], 0, 2, 13, 4, 3⟩ [97] (by decide) (by decide) (by decide)⟩

/-! ## The four outcomes of initialisation -/

theorem item_maxn_large_eq : BLOOM_FILTER_ITEM_MAXN_LARGE = 2 ^ 24 := by decide

theorem byte_maxn_large_eq : BLOOM_FILTER_BYTE_MAXN_LARGE = 2 ^ 28 := by decide

theorem init_already (plan : Nat → Nat → Int → Nat) (mem : Nat → Nat) (bf : bloom_filter)
    (pro nmax : Nat) (hash : Int) (h : bf.bits.isSome = true) :
    bloom_filter_init plan mem bf pro nmax hash = (0, bf) := by
  unfold bloom_filter_init
  rw [if_pos h]

theorem init_too_many (plan : Nat → Nat → Int → Nat) (mem : Nat → Nat) (bf : bloom_filter)
    (pro nmax : Nat) (hash : Int) (h1 : ¬ bf.bits.isSome = true) (h2 : nmax > 2 ^ 24) :
    bloom_filter_init plan mem bf pro nmax hash = (0, bf) := by
  unfold bloom_filter_init
  rw [if_neg h1, if_pos (by rw [item_maxn_large_eq]; exact h2)]

theorem init_too_large (plan : Nat → Nat → Int → Nat) (mem : Nat → Nat) (bf : bloom_filter)
    (pro nmax : Nat) (hash : Int) (h1 : ¬ bf.bits.isSome = true) (h2 : ¬ nmax > 2 ^ 24)
    (h3 : ((plan pro nmax hash % 2 ^ 64) >>> 3) + 1 > 2 ^ 28) :
    bloom_filter_init plan mem bf pro nmax hash =
      (0, { bf with hnum := hash, uhashmax := plan pro nmax hash % 2 ^ 64, uitemmax := nmax,
                    usize := ((plan pro nmax hash % 2 ^ 64) >>> 3) + 1 }) := by
  unfold bloom_filter_init
  rw [if_neg h1, if_neg (by rw [item_maxn_large_eq]; exact h2)]
  simp only
  rw [if_pos (by rw [byte_maxn_large_eq]; exact h3)]

theorem init_ok (plan : Nat → Nat → Int → Nat) (mem : Nat → Nat) (bf : bloom_filter)
    (pro nmax : Nat) (hash : Int) (h1 : ¬ bf.bits.isSome = true) (h2 : ¬ nmax > 2 ^ 24)
    (h3 : ¬ ((plan pro nmax hash % 2 ^ 64) >>> 3) + 1 > 2 ^ 28) :
    bloom_filter_init plan mem bf pro nmax hash =
      (1, { bf with hnum := hash, uhashmax := plan pro nmax hash % 2 ^ 64, uitemmax := nmax,
                    usize := ((plan pro nmax hash % 2 ^ 64) >>> 3) + 1,
                    bits := some ((List.range (((plan pro nmax hash % 2 ^ 64) >>> 3) + 1)).map
                      (fun i => mem i % 256)) }) := by
  unfold bloom_filter_init
  rw [if_neg h1, if_neg (by rw [item_maxn_large_eq]; exact h2)]
  simp only
  rw [if_neg (by rw [byte_maxn_large_eq]; exact h3)]

/-- The returned value is 0 exactly under the three failure conditions. -/
theorem init_zero_iff (plan : Nat → Nat → Int → Nat) (mem : Nat → Nat) (bf : bloom_filter)
    (pro nmax : Nat) (hash : Int) :
    (bloom_filter_init plan mem bf pro nmax hash).1 = 0 ↔
      (bf.bits.isSome = true ∨ nmax > 2 ^ 24 ∨
        ((plan pro nmax hash % 2 ^ 64) >>> 3) + 1 > 2 ^ 28) := by
  by_cases h1 : bf.bits.isSome = true
  · rw [init_already _ _ _ _ _ _ h1]
    exact ⟨fun _ => Or.inl h1, fun _ => rfl⟩
  · by_cases h2 : nmax > 2 ^ 24
    · rw [init_too_many _ _ _ _ _ _ h1 h2]
      exact ⟨fun _ => Or.inr (Or.inl h2), fun _ => rfl⟩
    · by_cases h3 : ((plan pro nmax hash % 2 ^ 64) >>> 3) + 1 > 2 ^ 28
      · rw [init_too_large _ _ _ _ _ _ h1 h2 h3]
        exact ⟨fun _ => Or.inr (Or.inr h3), fun _ => rfl⟩
      · rw [init_ok _ _ _ _ _ _ h1 h2 h3]
        constructor
        · intro h; simp at h
        · rintro (h | h | h)
          · exact absurd h h1
          · exact absurd h h2
          · exact absurd h h3

/-! ## Claims on initialisation -/

/-- C5: `bloom_filter_init` returns 0 exactly when the filter already has backing
storage, or `nmax > 2 ^ 24`, or the byte storage `(m >> 3) + 1` of the planned width
`m` exceeds `2 ^ 28`; so `nmax = 2 ^ 24 + 1` fails, and `nmax = 2 ^ 24` fails only for
one of the other two reasons. In every other case it returns 1 and the filter has
backing storage of `(m >> 3) + 1 ≤ 2 ^ 28` bytes. -/
theorem init_failure_conditions (plan : Nat → Nat → Int → Nat) (mem : Nat → Nat)
    (bf : bloom_filter) (pro nmax : Nat) (hash : Int) :
    ((bloom_filter_init plan mem bf pro nmax hash).1 = 0 ↔
      (bf.bits.isSome = true ∨ nmax > 2 ^ 24 ∨
        ((plan pro nmax hash % 2 ^ 64) >>> 3) + 1 > 2 ^ 28)) ∧
    (bloom_filter_init plan mem bf pro (2 ^ 24 + 1) hash).1 = 0 ∧
    ((bloom_filter_init plan mem bf pro (2 ^ 24) hash).1 = 0 ↔
      (bf.bits.isSome = true ∨ ((plan pro (2 ^ 24) hash % 2 ^ 64) >>> 3) + 1 > 2 ^ 28)) ∧
    (¬ (bf.bits.isSome = true ∨ nmax > 2 ^ 24 ∨
        ((plan pro nmax hash % 2 ^ 64) >>> 3) + 1 > 2 ^ 28) →
      (bloom_filter_init plan mem bf pro nmax hash).1 = 1 ∧
      ((plan pro nmax hash % 2 ^ 64) >>> 3) + 1 ≤ 2 ^ 28 ∧
      ∃ bs, (bloom_filter_init plan mem bf pro nmax hash).2.bits = some bs ∧
        bs.length = ((plan pro nmax hash % 2 ^ 64) >>> 3) + 1) := by
  refine ⟨init_zero_iff plan mem bf pro nmax hash, ?_, ?_, ?_⟩
  · exact (init_zero_iff plan mem bf pro (2 ^ 24 + 1) hash).mpr (Or.inr (Or.inl (by norm_num)))
  · rw [init_zero_iff]
    constructor
    · rintro (h | h | h)
      · exact Or.inl h
      · exact absurd h (by norm_num)
      · exact Or.inr h
    · rintro (h | h)
      · exact Or.inl h
      · exact Or.inr (Or.inr h)
  · intro h
    have h1 : ¬ bf.bits.isSome = true := fun h' => h (Or.inl h')
    have h2 : ¬ nmax > 2 ^ 24 := fun h' => h (Or.inr (Or.inl h'))
    have h3 : ¬ ((plan pro nmax hash % 2 ^ 64) >>> 3) + 1 > 2 ^ 28 :=
      fun h' => h (Or.inr (Or.inr h'))
    rw [init_ok _ _ _ _ _ _ h1 h2 h3]
    refine ⟨rfl, by omega, _, rfl, ?_⟩
    simp

/-- C6 (as stated, refuted): on a newly constructed filter whose members are all 0,
`bloom_filter_init(20, 1 << 24, 1)` with the width of exact real arithmetic returns 0
at the byte-storage check, and `hnum`, `uhashmax`, `uitemmax` and `usize` have
changed from 0 to 1, 17592177655812, 16777216 and 2199022206977. -/
theorem failed_init_overwrites_configuration :
    bloom_filter_init plan_width (fun _ => 0) (bloom_filter.bloom_filter ⟨none, 0, 0, 0, 0, 0⟩)
        20 (2 ^ 24) 1 =
      (0, ⟨none, 0, 2199022206977, 17592177655812, 16777216, 1⟩) := by
  rw [init_too_large _ _ _ _ _ _ (by decide) (by decide)
    (by rw [plan_width_20_big_1]; decide)]
  rw [plan_width_20_big_1]
  decide

/-- C6 (amended): when `bloom_filter_init` returns 0, `bits` and `ucount` are as
before; every member is as before when the failure is the check of existing storage
or of `nmax`; and when the failure is the byte-storage check the members `hnum`,
`uhashmax`, `uitemmax`, `usize` hold `hash`, the planned `m`, `nmax`, `(m >> 3) + 1`. -/
theorem failed_init_keeps_bits_and_count (plan : Nat → Nat → Int → Nat) (mem : Nat → Nat)
    (bf : bloom_filter) (pro nmax : Nat) (hash : Int)
    (h : (bloom_filter_init plan mem bf pro nmax hash).1 = 0) :
    (bloom_filter_init plan mem bf pro nmax hash).2.bits = bf.bits ∧
    (bloom_filter_init plan mem bf pro nmax hash).2.ucount = bf.ucount ∧
    ((bf.bits.isSome = true ∨ nmax > 2 ^ 24) →
      (bloom_filter_init plan mem bf pro nmax hash).2 = bf) ∧
    (¬ (bf.bits.isSome = true ∨ nmax > 2 ^ 24) →
      (bloom_filter_init plan mem bf pro nmax hash).2 =
        { bf with hnum := hash, uhashmax := plan pro nmax hash % 2 ^ 64, uitemmax := nmax,
                  usize := ((plan pro nmax hash % 2 ^ 64) >>> 3) + 1 }) := by
  by_cases h1 : bf.bits.isSome = true
  · rw [init_already _ _ _ _ _ _ h1]
    exact ⟨rfl, rfl, fun _ => rfl, fun hn => absurd (Or.inl h1) hn⟩
  · by_cases h2 : nmax > 2 ^ 24
    · rw [init_too_many _ _ _ _ _ _ h1 h2]
      exact ⟨rfl, rfl, fun _ => rfl, fun hn => absurd (Or.inr h2) hn⟩
    · by_cases h3 : ((plan pro nmax hash % 2 ^ 64) >>> 3) + 1 > 2 ^ 28
      · rw [init_too_large _ _ _ _ _ _ h1 h2 h3]
        refine ⟨rfl, rfl, ?_, fun _ => rfl⟩
        rintro (h' | h')
        · exact absurd h' h1
        · exact absurd h' h2
      · rw [init_ok _ _ _ _ _ _ h1 h2 h3] at h
        simp at h

/-- Witness of `failed_init_keeps_bits_and_count`: `nmax = 2 ^ 24 + 1` on a newly
constructed filter. -/
theorem failed_init_keeps_bits_and_count_witness :
    (bloom_filter_init plan_width (fun _ => 0) (bloom_filter.bloom_filter ⟨none, 0, 0, 0, 0, 0⟩)
        3 (2 ^ 24 + 1) 1).1 = 0 ∧
    (bloom_filter_init plan_width (fun _ => 0) (bloom_filter.bloom_filter ⟨none, 0, 0, 0, 0, 0⟩)
        3 (2 ^ 24 + 1) 1).2.bits = (bloom_filter.bloom_filter ⟨none, 0, 0, 0, 0, 0⟩).bits :=
  ⟨(init_zero_iff _ _ _ _ _ _).mpr (Or.inr (Or.inl (by norm_num))),
    (failed_init_keeps_bits_and_count plan_width (fun _ => 0)
      (bloom_filter.bloom_filter ⟨none, 0, 0, 0, 0, 0⟩) 3 (2 ^ 24 + 1) 1
      ((init_zero_iff _ _ _ _ _ _).mpr (Or.inr (Or.inl (by norm_num))))).1⟩

/-- C7 (the code at the failing input): a newly constructed filter whose memory holds
`ucount = 7`, an allocator whose memory holds the byte 255 everywhere, and
`bloom_filter_init(3, 8, 1)` with the width of exact real arithmetic, `m = 61`. The
call returns 1 and stores `hnum = 1`, `uitemmax = 8`, `uhashmax = 61`, `usize = 8`,
but `ucount` is still 7 and the eight bytes of the bit array are 255. -/
theorem init_leaves_count_and_bytes_indeterminate :
    bloom_filter_init plan_width (fun _ => 255)
        (bloom_filter.bloom_filter ⟨none, 7, 0, 0, 0, 0⟩) 3 8 1 =
      (1, ⟨some [255, 255, 255, 255, 255, 255, 255, 255], 7, 8, 61, 8, 1⟩) := by
  rw [init_ok _ _ _ _ _ _ (by decide) (by decide) (by rw [plan_width_3_8_1]; decide)]
  rw [plan_width_3_8_1]
  decide

/-- C10 (as stated, refuted): the class 5 is not one of the six supported exponents,
and `bloom_filter_init(5, 8, 1)` on a newly constructed filter, with the width of
exact real arithmetic `m = 253`, returns 1 and allocates 32 bytes. -/
theorem init_accepts_unsupported_class :
    supported_class 5 = false ∧
    bloom_filter_init plan_width (fun _ => 0) (bloom_filter.bloom_filter ⟨none, 0, 0, 0, 0, 0⟩)
        5 8 1 =
      (1, ⟨some (List.replicate 32 0), 0, 32, 253, 8, 1⟩) := by
  refine ⟨by decide, ?_⟩
  rw [init_ok _ _ _ _ _ _ (by decide) (by decide) (by rw [plan_width_5_8_1]; decide)]
  rw [plan_width_5_8_1]
  decide

/-- C10 (amended): `bloom_filter_init` does not check its probability class. For a
class outside the six supported exponents it returns 0 exactly under the three
conditions of existing storage, `nmax > 2 ^ 24`, or byte storage over `2 ^ 28`, and
then allocates nothing; otherwise it returns 1 and allocates the storage. -/
theorem init_unsupported_class (plan : Nat → Nat → Int → Nat) (mem : Nat → Nat)
    (bf : bloom_filter) (pro nmax : Nat) (hash : Int) (_hpro : supported_class pro = false) :
    ((bloom_filter_init plan mem bf pro nmax hash).1 = 0 ↔
      (bf.bits.isSome = true ∨ nmax > 2 ^ 24 ∨
        ((plan pro nmax hash % 2 ^ 64) >>> 3) + 1 > 2 ^ 28)) ∧
    ((bloom_filter_init plan mem bf pro nmax hash).1 = 0 →
      (bloom_filter_init plan mem bf pro nmax hash).2.bits = bf.bits) ∧
    ((bloom_filter_init plan mem bf pro nmax hash).1 ≠ 0 →
      (bloom_filter_init plan mem bf pro nmax hash).1 = 1 ∧
      (bloom_filter_init plan mem bf pro nmax hash).2.bits =
        some ((List.range (((plan pro nmax hash % 2 ^ 64) >>> 3) + 1)).map
          (fun i => mem i % 256))) := by
  refine ⟨init_zero_iff plan mem bf pro nmax hash, ?_, ?_⟩
  · intro h
    by_cases h1 : bf.bits.isSome = true
    · rw [init_already _ _ _ _ _ _ h1]
    · by_cases h2 : nmax > 2 ^ 24
      · rw [init_too_many _ _ _ _ _ _ h1 h2]
      · by_cases h3 : ((plan pro nmax hash % 2 ^ 64) >>> 3) + 1 > 2 ^ 28
        · rw [init_too_large _ _ _ _ _ _ h1 h2 h3]
        · rw [init_ok _ _ _ _ _ _ h1 h2 h3] at h
          simp at h
  · intro h
    have hnot := fun hc => h ((init_zero_iff plan mem bf pro nmax hash).mpr hc)
    have h1 : ¬ bf.bits.isSome = true := fun h' => hnot (Or.inl h')
    have h2 : ¬ nmax > 2 ^ 24 := fun h' => hnot (Or.inr (Or.inl h'))
    have h3 : ¬ ((plan pro nmax hash % 2 ^ 64) >>> 3) + 1 > 2 ^ 28 :=
      fun h' => hnot (Or.inr (Or.inr h'))
    rw [init_ok _ _ _ _ _ _ h1 h2 h3]
    exact ⟨rfl, rfl⟩

/-- Witness of `init_unsupported_class`: the class 5 with `nmax = 8` and one hash
function. -/
theorem init_unsupported_class_witness :
    supported_class 5 = false ∧
    ((bloom_filter_init plan_width (fun _ => 0) (bloom_filter.bloom_filter ⟨none, 0, 0, 0, 0, 0⟩)
        5 8 1).1 = 0 ↔
      ((bloom_filter.bloom_filter ⟨none, 0, 0, 0, 0, 0⟩).bits.isSome = true ∨ 8 > 2 ^ 24 ∨
        ((plan_width 5 8 1 % 2 ^ 64) >>> 3) + 1 > 2 ^ 28)) :=
  ⟨by decide,
    (init_unsupported_class plan_width (fun _ => 0)
      (bloom_filter.bloom_filter ⟨none, 0, 0, 0, 0, 0⟩) 5 8 1 (by decide)).1⟩

/-! ## Claim on the planned width -/

/-- C9: the planned width keeps the theoretical false-positive rate within the
target. For every supported class `c`, hash count `k ≥ 1` and item count `n ≥ 1`, with
`p = 2 ^ (-c)`, `cr = p ^ (1 / k)`, `s = 2k / (2 cr + cr ^ 2)` and `m = ⌈s n⌉` in
exact real arithmetic, `m` is the planned width and `(1 - e ^ (-k n / m)) ^ k ≤ p`. -/
theorem planned_width_keeps_rate_within_target (c k n : Nat) (hc : supported_class c = true)
    (hk : 1 ≤ k) (hn : 1 ≤ n) :
    plan_width c n (k : Int) =
        ⌈2 * (k : ℝ) / (2 * (1 / (2 : ℝ) ^ c) ^ (1 / (k : ℝ)) +
          ((1 / (2 : ℝ) ^ c) ^ (1 / (k : ℝ))) ^ 2) * (n : ℝ)⌉₊ ∧
      (1 - Real.exp (-((k : ℝ) * (n : ℝ)) / (plan_width c n (k : Int) : ℝ))) ^ k
        ≤ 1 / 2 ^ c := by
  have hc1 : 1 ≤ c := by
    unfold supported_class at hc
    simp only [Bool.or_eq_true, beq_iff_eq] at hc
    omega
  refine ⟨?_, rate_le_target c k n hc1 hk hn⟩
  unfold plan_width
  rw [plan_scale_eq]
  simp only [Int.cast_natCast]
  congr 3 <;> ring

/-- Witness of `planned_width_keeps_rate_within_target`: class 6, four hash functions
and 1000 items. -/
theorem planned_width_keeps_rate_within_target_witness :
    supported_class 6 = true ∧
    (1 - Real.exp (-(((4 : Nat) : ℝ) * ((1000 : Nat) : ℝ)) /
      (plan_width 6 1000 ((4 : Nat) : Int) : ℝ))) ^ 4 ≤ (1 : ℝ) / 2 ^ 6 :=
  ⟨by decide,
    (planned_width_keeps_rate_within_target 6 4 1000 (by decide) (by decide) (by decide)).2⟩

/-! ## Claims on the uninitialised filter, the insert postcondition and index safety -/

/-- C11 (the code at the failing input): a filter object whose members are all 0
(static storage) is left without backing storage by the failed
`bloom_filter_init(20, 1 << 24, 1)`, which has stored `uitemmax = 16777216`, `hnum = 1`
and `uhashmax = 17592177655812`; the following `bloom_filter_set("a", 1)` passes the
capacity check, increments `ucount` and writes through the NULL `bits` (undefined
behaviour, `none`) instead of returning 0. And on an object without storage whose
members are `ucount = 0`, `uitemmax = 1`, `hnum = 0` the call returns 1 and counts
the item. -/
theorem set_without_storage_does_not_fail :
    bloom_filter_init plan_width (fun _ => 0) (bloom_filter.bloom_filter ⟨none, 0, 0, 0, 0, 0⟩)
        20 (2 ^ 24) 1 =
      (0, ⟨none, 0, 2199022206977, 17592177655812, 16777216, 1⟩) ∧
    bloom_filter_set ⟨none, 0, 2199022206977, 17592177655812, 16777216, 1⟩ [97] = none ∧
    bloom_filter_set ⟨none, 0, 0, 0, 1, 0⟩ [97] = some (1, ⟨none, 1, 0, 0, 1, 0⟩) := by
  refine ⟨?_, by decide, by decide⟩
  rw [init_too_large _ _ _ _ _ _ (by decide) (by decide)
    (by rw [plan_width_20_big_1]; decide)]
  rw [plan_width_20_big_1]
  decide

/-- C12 (amended): postcondition of a successful insert. On a ready filter with
`ucount < uitemmax` (`uitemmax` a `uint64_t`), `bloom_filter_set` returns 1; afterwards
a bit `j` is set if and only if it was set before or `j` is the position
`((BKDRHash(key) + i * DJBHash(key)) mod 2 ^ 64) mod uhashmax` of some `0 ≤ i < hnum`;
`ucount` has grown by exactly 1; `hnum`, `uhashmax`, `uitemmax` and `usize` are
unchanged. -/
theorem successful_insert_postcondition (bf : bloom_filter) (key : List Int)
    (hr : ready bf = true) (hc : bf.ucount < bf.uitemmax) (h64 : bf.uitemmax < 2 ^ 64) :
    ∃ bf', bloom_filter_set bf key = some (1, bf') ∧
      (∀ j, bit_is_set bf' j = true ↔
        (bit_is_set bf j = true ∨
          ∃ i : Nat, (i : Int) < bf.hnum ∧
            (BKDRHash key + i * DJBHash key) % 2 ^ 64 % bf.uhashmax = j)) ∧
      bf'.ucount = bf.ucount + 1 ∧ bf'.hnum = bf.hnum ∧ bf'.uhashmax = bf.uhashmax ∧
      bf'.uitemmax = bf.uitemmax ∧ bf'.usize = bf.usize := by
  obtain ⟨bf', hset, _, hcount, hsize, hmax, hitem, hnum, hbits⟩ := set_accepted hr hc key
  refine ⟨bf', hset, ?_, ?_, hnum, hmax, hitem, hsize⟩
  · intro j
    rw [hbits j]
    constructor
    · rintro (h | ⟨i, hi, hpos⟩)
      · exact Or.inl h
      · exact Or.inr ⟨i, by have := List.mem_range.mp hi; omega, hpos⟩
    · rintro (h | ⟨i, hi, hpos⟩)
      · exact Or.inl h
      · exact Or.inr ⟨i, List.mem_range.mpr (by omega), hpos⟩
  · rw [hcount]
    exact Nat.mod_eq_of_lt (by omega)

/-- Witness of `successful_insert_postcondition`: a two-byte filter with three hash
functions and the key "a". -/
theorem successful_insert_postcondition_witness :
    ready ⟨some [0, 0], 0, 2, 13, 4, 3⟩ = true ∧
    ∃ bf', bloom_filter_set ⟨some [0, 0], 0, 2, 13, 4, 3⟩ [97] = some (1, bf') ∧
      (∀ j, bit_is_set bf' j = true ↔
        (bit_is_set ⟨some [0, 0], 0, 2, 13, 4, 3⟩ j = true ∨
          ∃ i : Nat, (i : Int) < 3 ∧
            (BKDRHash [97] + i * DJBHash [97]) % 2 ^ 64 % 13 = j)) ∧
      bf'.ucount = 0 + 1 ∧ bf'.hnum = 3 ∧ bf'.uhashmax = 13 ∧
      bf'.uitemmax = 4 ∧ bf'.usize = 2 :=
  ⟨by decide,
    successful_insert_postcondition ⟨some [0, 0], 0, 2, 13, 4, 3⟩ [97] (by decide) (by decide)
      (by decide)⟩

/-- C13: index safety. On a filter with `uhashmax = m > 0` and
`usize = (m >> 3) + 1`, every derived position
`((BKDRHash(key) + i * DJBHash(key)) % 2 ^ 64) % m` is below `m` and its byte index
`position >> 3` is below `usize`; so when `bits` holds `usize` bytes,
`bloom_filter_set` and `bloom_filter_get` return normally: no call of
`bloom_filter_set_bit` or `bloom_filter_get_bit` indexes outside the array. -/
theorem index_safety (bf : bloom_filter) (key : List Int) (hm : 0 < bf.uhashmax)
    (hsize : bf.usize = (bf.uhashmax >>> 3) + 1) :
    (∀ i : Nat,
      (BKDRHash key + i * DJBHash key) % 2 ^ 64 % bf.uhashmax < bf.uhashmax ∧
      ((BKDRHash key + i * DJBHash key) % 2 ^ 64 % bf.uhashmax) >>> 3 < bf.usize ∧
      hash_value bf (BKDRHash key) (DJBHash key) i =
        some ((BKDRHash key + i * DJBHash key) % 2 ^ 64 % bf.uhashmax)) ∧
    (∀ bs, bf.bits = some bs → bs.length = bf.usize →
      (∃ r bf', bloom_filter_set bf key = some (r, bf')) ∧
      (∃ r, bloom_filter_get bf key = some r)) := by
  constructor
  · intro i
    have hlt : (BKDRHash key + i * DJBHash key) % 2 ^ 64 % bf.uhashmax < bf.uhashmax :=
      Nat.mod_lt _ hm
    refine ⟨hlt, ?_, ?_⟩
    · rw [hsize, Nat.shiftRight_eq_div_pow, Nat.shiftRight_eq_div_pow]
      have := Nat.div_le_div_right (c := 2 ^ 3) (Nat.le_of_lt hlt)
      omega
    · unfold hash_value
      rw [if_neg (by omega)]
  · intro bs hbits hlen
    have hr : ready bf = true := (ready_iff bf).mpr ⟨bs, hbits, by rw [hlen, hsize], hm⟩
    obtain ⟨r, bf', hset, _⟩ := set_ready hr key
    obtain ⟨g, hget, _⟩ := get_ready hr key
    exact ⟨⟨r, bf', hset⟩, ⟨g, hget⟩⟩

/-- Witness of `index_safety`: 13 bit positions in 2 bytes, the key "a". -/
theorem index_safety_witness :
    (∀ i : Nat,
      (BKDRHash [97] + i * DJBHash [97]) % 2 ^ 64 % 13 < 13 ∧
      ((BKDRHash [97] + i * DJBHash [97]) % 2 ^ 64 % 13) >>> 3 < 2 ∧
      hash_value ⟨some [0, 0], 0, 2, 13, 4, 3⟩ (BKDRHash [97]) (DJBHash [97]) i =
        some ((BKDRHash [97] + i * DJBHash [97]) % 2 ^ 64 % 13)) ∧
    (∀ bs, (some [0, 0] : Option (List Nat)) = some bs → bs.length = 2 →
      (∃ r bf', bloom_filter_set ⟨some [0, 0], 0, 2, 13, 4, 3⟩ [97] = some (r, bf')) ∧
      (∃ r, bloom_filter_get ⟨some [0, 0], 0, 2, 13, 4, 3⟩ [97] = some r)) :=
  index_safety ⟨some [0, 0], 0, 2, 13, 4, 3⟩ [97] (by decide) (by decide)

/-! ## Claims on the bit store and the empty filter -/

theorem get_bit_defined {bf : bloom_filter} {bs : List Nat} {index : Nat}
    (hb : bf.bits = some bs) (hi : index >>> 3 < bs.length) :
    bloom_filter_get_bit bf index = some (bs[index >>> 3] &&& (1 <<< (index &&& 7))) := by
  unfold bloom_filter_get_bit
  simp only [hb]
  rw [List.getElem?_eq_getElem hi]

theorem bit_is_set_of_get_bit {bf : bloom_filter} {index v : Nat}
    (h : bloom_filter_get_bit bf index = some v) : (bit_is_set bf index = true ↔ v ≠ 0) := by
  unfold bit_is_set
  rw [h]
  simp

/-- C17: the set/get law of the bit store. For a byte array `bs` and bit indices `i`,
`j` inside it, `bloom_filter_set_bit(i)` returns normally and keeps the length;
afterwards `bloom_filter_get_bit(j)` is nonzero if and only if `j = i` or it was
nonzero before; every byte other than byte `i >> 3` is unchanged, and byte `i >> 3`
is the old byte with bit `i & 7` ORed in (as a `uint8_t`); the other members of the
object are unchanged. -/
theorem bit_store_set_get_law (bf : bloom_filter) (bs : List Nat) (i j : Nat)
    (hb : bf.bits = some bs) (hi : i >>> 3 < bs.length) (hj : j >>> 3 < bs.length) :
    ∃ bf' bs', bloom_filter_set_bit bf i = some bf' ∧ bf'.bits = some bs' ∧
      bs'.length = bs.length ∧
      (∃ v0 v1, bloom_filter_get_bit bf j = some v0 ∧ bloom_filter_get_bit bf' j = some v1 ∧
        (v1 ≠ 0 ↔ (j = i ∨ v0 ≠ 0))) ∧
      (∀ k, k ≠ i >>> 3 → bs'[k]? = bs[k]?) ∧
      bs'[i >>> 3]? = some ((bs[i >>> 3] ||| (1 <<< (i &&& 7))) % 256) ∧
      (bs[i >>> 3] < 256 →
        (bs[i >>> 3] ||| (1 <<< (i &&& 7))) % 256 = bs[i >>> 3] ||| (1 <<< (i &&& 7))) ∧
      bf'.ucount = bf.ucount ∧ bf'.usize = bf.usize ∧ bf'.uhashmax = bf.uhashmax ∧
      bf'.uitemmax = bf.uitemmax ∧ bf'.hnum = bf.hnum := by
  obtain ⟨bf', hset⟩ := set_bit_defined hb hi
  obtain ⟨bs0, b, hb0, hg, hbf'⟩ := set_bit_eq_some hset
  rw [hb] at hb0
  cases hb0
  have hbyte : b = bs[i >>> 3] := by
    rw [List.getElem?_eq_getElem hi] at hg
    exact (Option.some.inj hg).symm
  subst hbyte
  have hbits' : bf'.bits =
      some (bs.set (i >>> 3) ((bs[i >>> 3] ||| (1 <<< (i &&& 7))) % 256)) := by
    rw [hbf']
  have hlen : (bs.set (i >>> 3) ((bs[i >>> 3] ||| (1 <<< (i &&& 7))) % 256)).length
      = bs.length := List.length_set _ _ _
  refine ⟨bf', _, hset, hbits', hlen, ?_, ?_, List.getElem?_set_self hi, ?_, ?_⟩
  · have h0 := get_bit_defined hb hj
    have h1 := get_bit_defined hbits' (by rw [hlen]; exact hj)
    refine ⟨_, _, h0, h1, ?_⟩
    rw [← bit_is_set_of_get_bit h1, ← bit_is_set_of_get_bit h0, set_bit_bit_is_set hset j]
    exact Or.comm
  · intro k hk
    exact List.getElem?_set_ne (Ne.symm hk)
  · intro hlt
    apply Nat.mod_eq_of_lt
    have hmask : (1 <<< (i &&& 7)) < 2 ^ 8 := by
      rw [Nat.one_shiftLeft]
      exact Nat.pow_lt_pow_right (by norm_num) (and_seven_lt i)
    exact Nat.or_lt_two_pow (by simpa using hlt) hmask
  · rw [hbf']
    exact ⟨rfl, rfl, rfl, rfl, rfl⟩

/-- Witness of `bit_store_set_get_law`: setting bit 9 of a two-byte array and reading
bit 3. -/
theorem bit_store_set_get_law_witness :
    ∃ bf' bs', bloom_filter_set_bit ⟨some [8, 0], 0, 2, 13, 4, 3⟩ 9 = some bf' ∧
      bf'.bits = some bs' ∧ bs'.length = [8, 0].length ∧
      (∃ v0 v1, bloom_filter_get_bit ⟨some [8, 0], 0, 2, 13, 4, 3⟩ 3 = some v0 ∧
        bloom_filter_get_bit bf' 3 = some v1 ∧ (v1 ≠ 0 ↔ (3 = 9 ∨ v0 ≠ 0))) ∧
      (∀ k, k ≠ 9 >>> 3 → bs'[k]? = [8, 0][k]?) ∧
      bs'[9 >>> 3]? = some ((0 ||| (1 <<< (9 &&& 7))) % 256) ∧
      ((0 : Nat) < 256 → (0 ||| (1 <<< (9 &&& 7))) % 256 = 0 ||| (1 <<< (9 &&& 7))) ∧
      bf'.ucount = 0 ∧ bf'.usize = 2 ∧ bf'.uhashmax = 13 ∧ bf'.uitemmax = 4 ∧ bf'.hnum = 3 :=
  bit_store_set_get_law ⟨some [8, 0], 0, 2, 13, 4, 3⟩ [8, 0] 9 3 rfl (by decide) (by decide)

/-- C19: an empty filter rejects every key. On a ready filter with `hnum ≥ 1` whose
bytes are all 0, `bloom_filter_get` returns 0 for every key. -/
theorem empty_filter_rejects_every_key (bf : bloom_filter) (key : List Int)
    (hr : ready bf = true) (hn : 1 ≤ bf.hnum)
    (hz : ∀ bs, bf.bits = some bs → ∀ b ∈ bs, b = 0) :
    bloom_filter_get bf key = some 0 := by
  obtain ⟨r, hget, h01, hiff⟩ := get_ready hr key
  rcases h01 with h0 | h1
  · rw [hget, h0]
  · exfalso
    have hbit := (hiff.mp h1).2 0 (by omega)
    obtain ⟨bs, b, hb, hg, htest⟩ := (bit_is_set_iff bf _).mp hbit
    have hmem : b ∈ bs := List.getElem?_mem hg
    rw [hz bs hb b hmem] at htest
    simp at htest

/-- Witness of `empty_filter_rejects_every_key`: the empty two-byte filter and the
key "a". -/
theorem empty_filter_rejects_every_key_witness :
    ready ⟨some [0, 0], 0, 2, 13, 4, 3⟩ = true ∧
    bloom_filter_get ⟨some [0, 0], 0, 2, 13, 4, 3⟩ [97] = some 0 :=
  ⟨by decide,
    empty_filter_rejects_every_key ⟨some [0, 0], 0, 2, 13, 4, 3⟩ [97] (by decide) (by decide)
      (by
        intro bs hbs b hb
        cases hbs
        simp only [List.mem_cons, List.mem_singleton, List.not_mem_nil, or_false] at hb
        rcases hb with h | h <;> exact h)⟩

/-! ## Closed forms of the hash functions -/

theorem toU64_cast (x : Int) : ((toU64 x : Nat) : Int) = x % 2 ^ 64 := by
  unfold toU64
  exact Int.toNat_of_nonneg (Int.emod_nonneg x (by norm_num))

/-- A left fold whose step is `h ↦ (M * h + c) % 2 ^ 64` evaluates the polynomial
with coefficients `str` at `M`, on top of the initial value times `M ^ length`. -/
theorem rolling_fold_closed_form (step : Nat → Int → Nat) (M : Int)
    (hstep : ∀ h c, ((step h c : Nat) : Int) = (M * h + c) % 2 ^ 64) (str : List Int) :
    ∀ h : Nat, h < 2 ^ 64 →
      ((str.foldl step h : Nat) : Int) =
        ((h : Int) * M ^ str.length +
          ∑ i in Finset.range str.length, str.getD i 0 * M ^ (str.length - 1 - i)) % 2 ^ 64 := by
  induction str with
  | nil =>
    intro h hlt
    simp only [List.foldl_nil, List.length_nil, pow_zero, mul_one, Finset.range_zero,
      Finset.sum_empty, add_zero]
    rw [Int.emod_eq_of_lt (Int.natCast_nonneg h) (by exact_mod_cast hlt)]
  | cons c str ih =>
    intro h _
    have hnext : step h c < 2 ^ 64 := by
      have hlt : ((step h c : Nat) : Int) < 2 ^ 64 := by
        rw [hstep]
        exact Int.emod_lt_of_pos _ (by norm_num)
      exact_mod_cast hlt
    rw [List.foldl_cons, ih (step h c) hnext, hstep, List.length_cons,
      Finset.sum_range_succ']
    have hsum : ∑ i in Finset.range str.length,
          (c :: str).getD (i + 1) 0 * M ^ (str.length + 1 - 1 - (i + 1)) =
        ∑ i in Finset.range str.length, str.getD i 0 * M ^ (str.length - 1 - i) := by
      apply Finset.sum_congr rfl
      intro i _
      rw [List.getD_cons_succ]
      congr 2
      omega
    rw [hsum]
    simp only [List.getD_cons_zero, Nat.add_sub_cancel, Nat.sub_zero]
    rw [Int.add_emod, Int.mul_emod, Int.emod_emod, ← Int.mul_emod, ← Int.add_emod]
    congr 1
    ring

theorem BKDRHash_closed_form (str : List Int) :
    ((BKDRHash str : Nat) : Int) =
      (∑ i in Finset.range str.length, str.getD i 0 * 132 ^ (str.length - 1 - i)) % 2 ^ 64 := by
  have h := rolling_fold_closed_form
    (fun hash c => toU64 ((hash : Int) + ((hash : Int) * 131 + c))) 132
    (by intro h c; rw [toU64_cast]; congr 1; ring) str 0 (by norm_num)
  simp only [Nat.cast_zero, zero_mul, zero_add] at h
  exact h

/-- C15 (the code): `hash += hash * seed + c` with `seed = 131` multiplies the old
hash by 132, so `BKDRHash` is the polynomial rolling hash with multiplier 132: the
sum of `s[i] * 132 ^ (n - 1 - i)` reduced mod `2 ^ 64`. At the failing input "ab" it
returns `97 * 132 + 98 = 12902`, and the multiplier 131 would give 12805. -/
theorem BKDRHash_multiplies_by_132 :
    (∀ str : List Int, ((BKDRHash str : Nat) : Int) =
      (∑ i in Finset.range str.length, str.getD i 0 * 132 ^ (str.length - 1 - i)) % 2 ^ 64) ∧
    BKDRHash [97, 98] = 12902 ∧
    (∑ i in Finset.range 2, ([97, 98] : List Int).getD i 0 * 131 ^ (2 - 1 - i)) % 2 ^ 64
      = 12805 :=
  ⟨BKDRHash_closed_form, by decide, by decide⟩

/-- C16: `DJBHash` accumulates `hash * 32 + hash + c` from 5381. For every string
`s` of length `n` (of bytes below 128, and of any other `char` values as well),
`DJBHash(s, n)` is `5381 * 33 ^ n` plus the sum of `s[i] * 33 ^ (n - 1 - i)`, reduced
mod `2 ^ 64`; the empty string hashes to 5381. -/
theorem DJBHash_closed_form :
    (∀ str : List Int, ((DJBHash str : Nat) : Int) =
      (5381 * 33 ^ str.length +
        ∑ i in Finset.range str.length, str.getD i 0 * 33 ^ (str.length - 1 - i)) % 2 ^ 64) ∧
    DJBHash [] = 5381 := by
  refine ⟨?_, rfl⟩
  intro str
  have h := rolling_fold_closed_form
    (fun hash c => toU64 ((hash : Int) + (((hash <<< 5 : Nat) : Int) + c))) 33
    (by
      intro h c
      rw [toU64_cast, Nat.shiftLeft_eq]
      congr 1
      push_cast
      ring) str 5381 (by norm_num)
  exact h

/-! ## Order of insertions -/

theorem or_mask_twice_comm (b p q : Nat) :
    (((b ||| (1 <<< p)) % 256) ||| (1 <<< q)) % 256 =
      (((b ||| (1 <<< q)) % 256) ||| (1 <<< p)) % 256 := by
  apply Nat.eq_of_testBit_eq
  intro i
  rw [or_mask_testBit, or_mask_testBit, or_mask_testBit, or_mask_testBit]
  cases decide (i < 8) <;> cases b.testBit i <;> cases decide (p = i) <;>
    cases decide (q = i) <;> rfl

/-- Two calls of `bloom_filter_set_bit` commute. -/
theorem set_bit_comm (bf : bloom_filter) (p q : Nat) :
    set_bits bf [p, q] = set_bits bf [q, p] := by
  simp only [set_bits]
  cases hp : bloom_filter_set_bit bf p with
  | none =>
    cases hq : bloom_filter_set_bit bf q with
    | none => rfl
    | some bfq =>
      obtain ⟨bs, b, hb, hg, rfl⟩ := set_bit_eq_some hq
      simp only
      unfold bloom_filter_set_bit at hp ⊢
      simp only [hb] at hp ⊢
      cases hgp : bs[p >>> 3]? with
      | some c => simp [hgp] at hp
      | none =>
        have hlen : bs.length ≤ p >>> 3 := List.getElem?_eq_none_iff.mp hgp
        have : (bs.set (q >>> 3) ((b ||| 1 <<< (q &&& 7)) % 256))[p >>> 3]? = none :=
          List.getElem?_eq_none_iff.mpr (by rw [List.length_set]; exact hlen)
        simp only [this]
  | some bfp =>
    obtain ⟨bs, b, hb, hg, rfl⟩ := set_bit_eq_some hp
    have hpl : p >>> 3 < bs.length := (List.getElem?_eq_some_iff.mp hg).1
    simp only
    cases hq : bloom_filter_set_bit bf q with
    | none =>
      simp only
      unfold bloom_filter_set_bit at hq ⊢
      simp only [hb] at hq ⊢
      cases hgq : bs[q >>> 3]? with
      | some c => simp [hgq] at hq
      | none =>
        have hlen : bs.length ≤ q >>> 3 := List.getElem?_eq_none_iff.mp hgq
        have : (bs.set (p >>> 3) ((b ||| 1 <<< (p &&& 7)) % 256))[q >>> 3]? = none :=
          List.getElem?_eq_none_iff.mpr (by rw [List.length_set]; exact hlen)
        simp only [this]
    | some bfq =>
      obtain ⟨bs', c, hb', hg', rfl⟩ := set_bit_eq_some hq
      rw [hb] at hb'
      cases hb'
      have hql : q >>> 3 < bs.length := (List.getElem?_eq_some_iff.mp hg').1
      simp only
      unfold bloom_filter_set_bit
      simp only
      by_cases hpq : p >>> 3 = q >>> 3
      · rw [hpq] at hg
        rw [hg'] at hg
        cases hg
        rw [hpq]
        simp only [List.getElem?_set_self hql, List.set_set]
        rw [or_mask_twice_comm]
      · rw [List.getElem?_set_ne hpq, List.getElem?_set_ne (Ne.symm hpq), hg, hg']
        simp only
        rw [List.set_comm _ _ _ hpq]

theorem set_bits_perm {ps qs : List Nat} (h : ps.Perm qs) :
    ∀ bf : bloom_filter, set_bits bf ps = set_bits bf qs := by
  induction h with
  | nil => intro bf; rfl
  | cons p _ ih =>
    intro bf
    simp only [set_bits]
    cases bloom_filter_set_bit bf p with
    | none => rfl
    | some bf1 => exact ih bf1
  | swap p q l =>
    intro bf
    have hswap := set_bit_comm bf q p
    simp only [set_bits] at hswap ⊢
    cases hq : bloom_filter_set_bit bf q with
    | none =>
      rw [hq] at hswap
      simp only at hswap ⊢
      cases hp : bloom_filter_set_bit bf p with
      | none => rfl
      | some bfp =>
        rw [hp] at hswap
        simp only at hswap ⊢
        cases hpq : bloom_filter_set_bit bfp q with
        | none => rfl
        | some x => rw [hpq] at hswap; simp at hswap
    | some bfq =>
      rw [hq] at hswap
      simp only at hswap ⊢
      cases hp : bloom_filter_set_bit bf p with
      | none =>
        rw [hp] at hswap
        simp only at hswap
        cases hqp : bloom_filter_set_bit bfq p with
        | none => rfl
        | some x => rw [hqp] at hswap; simp at hswap
      | some bfp =>
        rw [hp] at hswap
        simp only at hswap ⊢
        cases hqp : bloom_filter_set_bit bfq p with
        | none =>
          rw [hqp] at hswap
          cases hpq : bloom_filter_set_bit bfp q with
          | none => rfl
          | some x => rw [hpq] at hswap; simp at hswap
        | some x =>
          rw [hqp] at hswap
          cases hpq : bloom_filter_set_bit bfp q with
          | none => rw [hpq] at hswap; simp at hswap
          | some y =>
            rw [hpq] at hswap
            simp only [Option.some.injEq] at hswap
            simp only
            rw [hswap]
  | trans _ _ ih1 ih2 =>
    intro bf
    rw [ih1 bf, ih2 bf]

theorem set_bits_append (ps qs : List Nat) :
    ∀ bf t : bloom_filter, set_bits bf ps = some t →
      set_bits bf (ps ++ qs) = set_bits t qs := by
  induction ps with
  | nil =>
    intro bf t h
    simp only [set_bits, Option.some.injEq] at h
    subst h
    rfl
  | cons p ps ih =>
    intro bf t h
    simp only [set_bits, List.cons_append] at h ⊢
    cases hp : bloom_filter_set_bit bf p with
    | none => rw [hp] at h; simp at h
    | some bf1 =>
      rw [hp] at h
      simp only at h ⊢
      exact ih bf1 t h

theorem set_bit_with_ucount (bf : bloom_filter) (c p : Nat) :
    bloom_filter_set_bit { bf with ucount := c } p =
      (bloom_filter_set_bit bf p).map (fun t => { t with ucount := c }) := by
  unfold bloom_filter_set_bit
  cases bf.bits with
  | none => rfl
  | some bs =>
    simp only
    cases bs[p >>> 3]? with
    | none => rfl
    | some b => rfl

theorem set_bits_with_ucount (ps : List Nat) :
    ∀ (bf : bloom_filter) (c : Nat), set_bits { bf with ucount := c } ps =
      (set_bits bf ps).map (fun t => { t with ucount := c }) := by
  induction ps with
  | nil => intro bf c; rfl
  | cons p ps ih =>
    intro bf c
    simp only [set_bits]
    rw [set_bit_with_ucount]
    cases bloom_filter_set_bit bf p with
    | none => rfl
    | some bf1 =>
      simp only [Option.map_some']
      exact ih bf1 c

/-- The loop of `bloom_filter_set` is the sequence of `bloom_filter_set_bit` calls at
the derived positions. -/
theorem set_loop_eq_set_bits (k1 k2 : Nat) (is : List Nat) :
    ∀ bf : bloom_filter, bf.uhashmax ≠ 0 →
      set_loop k1 k2 bf is =
        set_bits bf (is.map (fun i => (k1 + i * k2) % 2 ^ 64 % bf.uhashmax)) := by
  induction is with
  | nil => intro bf _; rfl
  | cons i is ih =>
    intro bf hm
    simp only [set_loop, List.map_cons, set_bits, set_step, hash_value, hm, if_false]
    cases hstep : bloom_filter_set_bit bf ((k1 + i * k2) % 2 ^ 64 % bf.uhashmax) with
    | none => rfl
    | some bf1 =>
      have hshape := set_bit_same_shape hstep
      simp only
      rw [ih bf1 (by rw [hshape.2.2.1]; exact hm), hshape.2.2.1]

/-- An accepted insert on a ready filter, as the `bloom_filter_set_bit` calls at the
positions of the key followed by the new count. -/
theorem set_accepted_as_set_bits {bf : bloom_filter} (hr : ready bf = true)
    (h : bf.ucount < bf.uitemmax) (str : List Int) :
    ∃ t, set_bits bf (key_positions bf str) = some t ∧
      bloom_filter_set bf str = some (1, { t with ucount := (bf.ucount + 1) % 2 ^ 64 }) ∧
      ready t = true ∧ t.uhashmax = bf.uhashmax ∧ t.hnum = bf.hnum ∧
      t.uitemmax = bf.uitemmax := by
  obtain ⟨_, _, _, hm⟩ := (ready_iff bf).mp hr
  obtain ⟨bf', hloop, hshape, _, _⟩ :=
    set_loop_ready (BKDRHash str) (DJBHash str) (List.range bf.hnum.toNat)
      { bf with ucount := (bf.ucount + 1) % 2 ^ 64 } (ready_with_ucount hr _)
  rw [set_loop_eq_set_bits _ _ _ _ (by show bf.uhashmax ≠ 0; omega)] at hloop
  have hpos : set_bits { bf with ucount := (bf.ucount + 1) % 2 ^ 64 }
      (key_positions bf str) = some bf' := hloop
  rw [set_bits_with_ucount] at hpos
  cases ht : set_bits bf (key_positions bf str) with
  | none => rw [ht] at hpos; simp at hpos
  | some t =>
    rw [ht] at hpos
    simp only [Option.map_some', Option.some.injEq] at hpos
    subst hpos
    obtain ⟨_, _, s3, s4, s5, s6⟩ := hshape
    have hrt : ready t = true := by
      obtain ⟨bs, hb, hl, hm'⟩ := (ready_iff bf).mp hr
      cases hbt : t.bits with
      | none => simp [hbt, hb] at s6
      | some bs' =>
        simp only [hbt, hb, Option.map_some', Option.some.injEq] at s6
        exact (ready_iff t).mpr ⟨bs', hbt, by
          have e3 : t.uhashmax = bf.uhashmax := s3
          rw [s6, hl, e3], by
          have e3 : t.uhashmax = bf.uhashmax := s3
          rw [e3]; exact hm'⟩
    refine ⟨t, rfl, ?_, hrt, s3, s5, s4⟩
    rw [set_unfold_accept (by omega)]
    have hloop' : set_loop (BKDRHash str) (DJBHash str)
        { bf with ucount := (bf.ucount + 1) % 2 ^ 64 } (List.range bf.hnum.toNat) =
        some { t with ucount := (bf.ucount + 1) % 2 ^ 64 } := by
      rw [set_loop_eq_set_bits _ _ _ _ (by show bf.uhashmax ≠ 0; omega)]
      show set_bits { bf with ucount := (bf.ucount + 1) % 2 ^ 64 } (key_positions bf str) = _
      rw [set_bits_with_ucount, ht]
      rfl
    rw [hloop']

theorem key_positions_congr {bf bf' : bloom_filter} (hm : bf'.uhashmax = bf.uhashmax)
    (hn : bf'.hnum = bf.hnum) (str : List Int) :
    key_positions bf' str = key_positions bf str := by
  unfold key_positions
  rw [hm, hn]

/-- The first insert followed by the second, on a ready filter with room for both. -/
theorem set_then_set {bf : bloom_filter} (hr : ready bf = true)
    (hc : bf.ucount + 2 ≤ bf.uitemmax) (a b : List Int) :
    ∃ s1 u, bloom_filter_set bf a = some (1, s1) ∧
      set_bits bf (key_positions bf a ++ key_positions bf b) = some u ∧
      bloom_filter_set s1 b =
        some (1, { u with ucount := ((bf.ucount + 1) % 2 ^ 64 + 1) % 2 ^ 64 }) := by
  obtain ⟨t, hta, hseta, hrt, hmt, hnt, hit⟩ := set_accepted_as_set_bits hr (by omega) a
  have hmod : (bf.ucount + 1) % 2 ^ 64 ≤ bf.ucount + 1 := Nat.mod_le _ _
  have hr1 : ready { t with ucount := (bf.ucount + 1) % 2 ^ 64 } = true :=
    ready_with_ucount hrt _
  obtain ⟨v, hvb, hsetb, _, _, _, _⟩ :=
    set_accepted_as_set_bits hr1 (by
      show (bf.ucount + 1) % 2 ^ 64 < t.uitemmax
      rw [hit]; omega) b
  have hposb : key_positions { t with ucount := (bf.ucount + 1) % 2 ^ 64 } b =
      key_positions bf b := key_positions_congr hmt hnt b
  rw [hposb, set_bits_with_ucount] at hvb
  cases hu : set_bits t (key_positions bf b) with
  | none => rw [hu] at hvb; simp at hvb
  | some u =>
    rw [hu] at hvb
    simp only [Option.map_some', Option.some.injEq] at hvb
    subst hvb
    refine ⟨_, u, hseta, ?_, hsetb⟩
    rw [set_bits_append _ _ _ _ hta, hu]

/-- C20: insertion order does not matter. On a ready filter with
`ucount + 2 ≤ uitemmax`, `bloom_filter_set(a)` followed by `bloom_filter_set(b)` and
`bloom_filter_set(b)` followed by `bloom_filter_set(a)` all return 1 and leave the
same object: the same bit array, `ucount` and configuration. -/
theorem insertion_order_does_not_matter (bf : bloom_filter) (a b : List Int)
    (hr : ready bf = true) (hc : bf.ucount + 2 ≤ bf.uitemmax) :
    ∃ sa sb s, bloom_filter_set bf a = some (1, sa) ∧ bloom_filter_set sa b = some (1, s) ∧
      bloom_filter_set bf b = some (1, sb) ∧ bloom_filter_set sb a = some (1, s) := by
  obtain ⟨sa, u, hsa, hu, hsab⟩ := set_then_set hr hc a b
  obtain ⟨sb, u', hsb, hu', hsba⟩ := set_then_set hr hc b a
  have hperm : set_bits bf (key_positions bf a ++ key_positions bf b) =
      set_bits bf (key_positions bf b ++ key_positions bf a) :=
    set_bits_perm List.perm_append_comm bf
  rw [hu, hu'] at hperm
  cases hperm
  exact ⟨sa, sb, _, hsa, hsab, hsb, hsba⟩

/-- Witness of `insertion_order_does_not_matter`: a two-byte filter with three hash
functions and the keys "a" and "b". -/
theorem insertion_order_does_not_matter_witness :
    ready ⟨some [0, 0], 0, 2, 13, 4, 3⟩ = true ∧
    ∃ sa sb s, bloom_filter_set ⟨some [0, 0], 0, 2, 13, 4, 3⟩ [97] = some (1, sa) ∧
      bloom_filter_set sa [98] = some (1, s) ∧
      bloom_filter_set ⟨some [0, 0], 0, 2, 13, 4, 3⟩ [98] = some (1, sb) ∧
      bloom_filter_set sb [97] = some (1, s) :=
  ⟨by decide,
    insertion_order_does_not_matter ⟨some [0, 0], 0, 2, 13, 4, 3⟩ [97] [98] (by decide)
      (by decide)⟩

/-! ## Bounds on the planned width -/

/-- The ratio `c = (1 / 2 ^ pro) ^ (1 / k)` for `k ≥ 1` and any class: it is positive,
at most 1, and its `k`-th power is `1 / 2 ^ pro`. -/
theorem plan_ratio_basic (pro k : Nat) (hk : 1 ≤ k) :
    0 < (1 / (2 : ℝ) ^ pro) ^ (1 / (k : ℝ)) ∧ (1 / (2 : ℝ) ^ pro) ^ (1 / (k : ℝ)) ≤ 1 ∧
      ((1 / (2 : ℝ) ^ pro) ^ (1 / (k : ℝ))) ^ k = 1 / 2 ^ pro := by
  have hp0 : (0 : ℝ) < 1 / 2 ^ pro := by positivity
  have hp1 : (1 : ℝ) / 2 ^ pro ≤ 1 := by
    rw [div_le_one (by positivity)]
    exact one_le_pow₀ (by norm_num)
  have hk0 : (0 : ℝ) < k := by exact_mod_cast hk
  refine ⟨Real.rpow_pos_of_pos hp0 _, Real.rpow_le_one hp0.le hp1 (by positivity), ?_⟩
  rw [← Real.rpow_natCast, ← Real.rpow_mul hp0.le, one_div_mul_cancel hk0.ne', Real.rpow_one]

/-- A number whose `k`-th power is at most `1 / 2 ^ pro` is at most the ratio. -/
theorem le_plan_ratio (pro k : Nat) (hk : 1 ≤ k) (x : ℝ)
    (hx : x ^ k ≤ 1 / 2 ^ pro) : x ≤ (1 / (2 : ℝ) ^ pro) ^ (1 / (k : ℝ)) := by
  obtain ⟨hc0, _, hck⟩ := plan_ratio_basic pro k hk
  by_contra hlt
  have hlt' : (1 / (2 : ℝ) ^ pro) ^ (1 / (k : ℝ)) < x := lt_of_not_ge hlt
  have hpow := pow_lt_pow_left₀ hlt' hc0.le (by omega : k ≠ 0)
  rw [hck] at hpow
  linarith

/-- The scale is at most `2k / (2x + x ^ 2)` for every positive `x` below the ratio. -/
theorem plan_scale_le (pro k : Nat) (hk : 1 ≤ k) (x : ℝ) (hx0 : 0 < x)
    (hx : x ^ k ≤ 1 / 2 ^ pro) :
    plan_scale pro (k : Int) ≤ 2 * (k : ℝ) / (2 * x + x ^ 2) := by
  have hc := le_plan_ratio pro k hk x hx
  have hs := plan_scale_eq pro (k : Int)
  simp only [Int.cast_natCast] at hs
  rw [hs]
  generalize (1 / (2 : ℝ) ^ pro) ^ (1 / (k : ℝ)) = c at hc
  have hc0 : 0 < c := lt_of_lt_of_le hx0 hc
  have hk0 : (0 : ℝ) < k := by exact_mod_cast hk
  have hden : 2 * x + x ^ 2 ≤ c + c + c * c := by nlinarith
  calc ((k : ℝ) + k) / (c + c + c * c) = 2 * (k : ℝ) / (c + c + c * c) := by ring
    _ ≤ 2 * (k : ℝ) / (2 * x + x ^ 2) :=
        div_le_div_of_nonneg_left (by positivity) (by positivity) hden

/-- The width is at most `N` when `2k / (2x + x ^ 2) * n ≤ N` for such an `x`. -/
theorem plan_width_le (pro n k N : Nat) (hk : 1 ≤ k) (x : ℝ) (hx0 : 0 < x)
    (hx : x ^ k ≤ 1 / 2 ^ pro) (hN : 2 * (k : ℝ) / (2 * x + x ^ 2) * n ≤ N) :
    plan_width pro n (k : Int) ≤ N := by
  unfold plan_width
  apply Nat.ceil_le.mpr
  calc plan_scale pro (k : Int) * n ≤ 2 * (k : ℝ) / (2 * x + x ^ 2) * n :=
        mul_le_mul_of_nonneg_right (plan_scale_le pro k hk x hx0 hx) (Nat.cast_nonneg n)
    _ ≤ N := hN

/-- The scale is at least `2k / 3`, so two items or more give a width of at least the
hash count. -/
theorem hash_le_plan_width (pro nmax : Nat) (hash : Int) (hh : 1 ≤ hash) (hn : 2 ≤ nmax) :
    hash ≤ (plan_width pro nmax hash : Int) := by
  obtain ⟨k, rfl⟩ := Int.eq_ofNat_of_zero_le (by omega : 0 ≤ hash)
  have hk : 1 ≤ k := by exact_mod_cast hh
  obtain ⟨hc0, hc1, _⟩ := plan_ratio_basic pro k hk
  have hs := plan_scale_eq pro (k : Int)
  simp only [Int.cast_natCast] at hs
  generalize (1 / (2 : ℝ) ^ pro) ^ (1 / (k : ℝ)) = c at hc0 hc1 hs
  have hk0 : (0 : ℝ) < k := by exact_mod_cast hk
  have hn2 : (2 : ℝ) ≤ nmax := by exact_mod_cast hn
  have hscale : (2 : ℝ) * k / 3 ≤ plan_scale pro (k : Int) := by
    rw [hs, div_le_div_iff₀ (by norm_num) (by positivity)]
    nlinarith [mul_nonneg hk0.le (sub_nonneg.mpr hc1), mul_nonneg hk0.le hc0.le,
      mul_nonneg (mul_nonneg hk0.le hc0.le) (sub_nonneg.mpr hc1)]
  have hm : plan_scale pro (k : Int) * nmax ≤ (plan_width pro nmax (k : Int) : ℝ) :=
    Nat.le_ceil _
  have hreal : (k : ℝ) ≤ (plan_width pro nmax (k : Int) : ℝ) := by
    have h1 : (2 : ℝ) * k / 3 * 2 ≤ plan_scale pro (k : Int) * nmax :=
      mul_le_mul hscale hn2 (by norm_num) (le_trans (by positivity) hscale)
    linarith
  exact_mod_cast hreal

theorem plan_width_zero_items (pro : Nat) (hash : Int) : plan_width pro 0 hash = 0 := by
  unfold plan_width
  simp

theorem plan_width_3_1_15_le : plan_width 3 1 15 ≤ 14 := by
  have h := plan_width_le 3 1 15 14 (by norm_num) (78 / 100) (by norm_num) (by norm_num)
    (by norm_num)
  exact_mod_cast h

theorem plan_width_16_micro_1 : plan_width 16 (2 ^ 16) 1 = 4294934529 := by
  unfold plan_width
  rw [plan_scale_hash_one, Nat.ceil_eq_iff (by norm_num)]
  norm_num

theorem plan_width_20_micro_1 : plan_width 20 (2 ^ 16) 1 = 68719443969 := by
  unfold plan_width
  rw [plan_scale_hash_one, Nat.ceil_eq_iff (by norm_num)]
  norm_num

/-- With `2 ^ 16` items the width stays below `2 ^ 31` for every supported class and
hash count 1 to 15, except for one hash function with class 16 or 20. -/
theorem plan_width_micro_lt (pro k : Nat) (hpro : supported_class pro = true) (hk : 1 ≤ k)
    (hk15 : k ≤ 15) (hex : ¬ (k = 1 ∧ (pro = 16 ∨ pro = 20))) :
    plan_width pro (2 ^ 16) (k : Int) < 2 ^ 31 := by
  have hcls : pro = 3 ∨ pro = 6 ∨ pro = 10 ∨ pro = 13 ∨ pro = 16 ∨ pro = 20 := by
    unfold supported_class at hpro
    simpa only [Bool.or_eq_true, beq_iff_eq, or_assoc] using hpro
  have hk15' : (k : ℝ) ≤ 15 := by exact_mod_cast hk15
  by_cases hk1 : k = 1
  · subst hk1
    have hpro13 : pro ≤ 13 := by omega
    have h := plan_width_le pro (2 ^ 16) 1 (2 ^ 13 * 2 ^ 16) (le_refl 1) ((1 / 2) ^ 13)
      (by positivity)
      (by
        rw [pow_one, one_div, one_div, inv_pow]
        exact inv_anti₀ (by positivity) (pow_le_pow_right₀ (by norm_num) hpro13))
      (by norm_num)
    calc plan_width pro (2 ^ 16) ((1 : Nat) : Int) ≤ 2 ^ 13 * 2 ^ 16 := h
      _ < 2 ^ 31 := by norm_num
  · have hk2 : 2 ≤ k := by omega
    have hpro20 : pro ≤ 10 * k := by omega
    have h := plan_width_le pro (2 ^ 16) k (15 * 2 ^ 10 * 2 ^ 16) hk ((1 / 2) ^ 10)
      (by positivity)
      (by
        rw [← pow_mul, one_div, one_div, inv_pow]
        exact inv_anti₀ (by positivity) (pow_le_pow_right₀ (by norm_num) hpro20))
      (by
        have : (2 : ℝ) * k / (2 * (1 / 2) ^ 10 + ((1 / 2) ^ 10) ^ 2) = k * (2097152 / 2049) := by
          norm_num
          ring
        rw [this]
        push_cast
        linarith)
    calc plan_width pro (2 ^ 16) (k : Int) ≤ 15 * 2 ^ 10 * 2 ^ 16 := h
      _ < 2 ^ 31 := by norm_num

/-! ## Claims on the stored width -/

theorem new_filter_has_no_storage (indet : bloom_filter) :
    ¬ (bloom_filter.bloom_filter indet).bits.isSome = true := by
  simp [bloom_filter.bloom_filter]

/-- A call that returns 1 passed the three checks. -/
theorem init_one_passed (plan : Nat → Nat → Int → Nat) (mem : Nat → Nat) (bf : bloom_filter)
    (pro nmax : Nat) (hash : Int) (h : (bloom_filter_init plan mem bf pro nmax hash).1 = 1) :
    ¬ bf.bits.isSome = true ∧ ¬ nmax > 2 ^ 24 ∧
      ¬ ((plan pro nmax hash % 2 ^ 64) >>> 3) + 1 > 2 ^ 28 := by
  have hne : ¬ (bloom_filter_init plan mem bf pro nmax hash).1 = 0 := by
    rw [h]; decide
  rw [init_zero_iff] at hne
  exact ⟨fun h' => hne (Or.inl h'), fun h' => hne (Or.inr (Or.inl h')),
    fun h' => hne (Or.inr (Or.inr h'))⟩

theorem plan_width_eq_ceil (pro nmax k : Nat) :
    plan_width pro nmax (k : Int) =
      ⌈2 * (k : ℝ) / (2 * (1 / (2 : ℝ) ^ pro) ^ (1 / (k : ℝ)) +
        ((1 / (2 : ℝ) ^ pro) ^ (1 / (k : ℝ))) ^ 2) * (nmax : ℝ)⌉₊ := by
  unfold plan_width
  rw [plan_scale_eq]
  simp only [Int.cast_natCast]
  congr 3 <;> ring

/-- C14 (as stated, refuted): `bloom_filter_init(6, 0, 4)` on a newly constructed
filter plans the width 0, returns 1 and stores `uhashmax = 0 < 4 = hnum` (a following
`bloom_filter_get` divides by zero); `bloom_filter_init(3, 1, 15)` returns 1 and stores
`hnum = 15` with `uhashmax ≤ 14`. The widths are those of exact real arithmetic. -/
theorem init_stores_width_below_hash_count :
    bloom_filter_init plan_width (fun _ => 0) (bloom_filter.bloom_filter ⟨none, 0, 0, 0, 0, 0⟩)
        6 0 4 = (1, ⟨some [0], 0, 1, 0, 0, 4⟩) ∧
    bloom_filter_get ⟨some [0], 0, 1, 0, 0, 4⟩ [97] = none ∧
    (bloom_filter_init plan_width (fun _ => 0) (bloom_filter.bloom_filter ⟨none, 0, 0, 0, 0, 0⟩)
        3 1 15).1 = 1 ∧
    (bloom_filter_init plan_width (fun _ => 0) (bloom_filter.bloom_filter ⟨none, 0, 0, 0, 0, 0⟩)
        3 1 15).2.hnum = 15 ∧
    (bloom_filter_init plan_width (fun _ => 0) (bloom_filter.bloom_filter ⟨none, 0, 0, 0, 0, 0⟩)
        3 1 15).2.uhashmax ≤ 14 := by
  have hsmall : plan_width 3 1 15 % 2 ^ 64 ≤ 14 :=
    le_trans (Nat.mod_le _ _) plan_width_3_1_15_le
  have h3 : ¬ ((plan_width 3 1 15 % 2 ^ 64) >>> 3) + 1 > 2 ^ 28 := by
    rw [Nat.shiftRight_eq_div_pow]
    omega
  refine ⟨?_, by decide, ?_, ?_, ?_⟩
  · rw [init_ok _ _ _ _ _ _ (by decide) (by decide)
      (by rw [plan_width_zero_items]; decide)]
    rw [plan_width_zero_items]
    decide
  · rw [init_ok _ _ _ _ _ _ (by decide) (by decide) h3]
  · rw [init_ok _ _ _ _ _ _ (by decide) (by decide) h3]
  · rw [init_ok _ _ _ _ _ _ (by decide) (by decide) h3]
    exact hsmall

/-- C18 (as stated, refuted): for the supported class 20 and one hash function,
`bloom_filter_init` with `2 ^ 16` items on a newly constructed filter plans the width
68719443969 (exact real arithmetic), whose byte storage 8589930497 exceeds `2 ^ 28`,
and returns 0; the same happens for class 16 with the width 4294934529. -/
theorem init_micro_fails_with_one_hash :
    supported_class 20 = true ∧
    bloom_filter_init plan_width (fun _ => 0) (bloom_filter.bloom_filter ⟨none, 0, 0, 0, 0, 0⟩)
        20 (2 ^ 16) 1 = (0, ⟨none, 0, 8589930497, 68719443969, 65536, 1⟩) ∧
    supported_class 16 = true ∧
    bloom_filter_init plan_width (fun _ => 0) (bloom_filter.bloom_filter ⟨none, 0, 0, 0, 0, 0⟩)
        16 (2 ^ 16) 1 = (0, ⟨none, 0, 536866817, 4294934529, 65536, 1⟩) := by
  refine ⟨by decide, ?_, by decide, ?_⟩
  · rw [init_too_large _ _ _ _ _ _ (by decide) (by decide)
      (by rw [plan_width_20_micro_1]; decide)]
    rw [plan_width_20_micro_1]
    decide
  · rw [init_too_large _ _ _ _ _ _ (by decide) (by decide)
      (by rw [plan_width_16_micro_1]; decide)]
    rw [plan_width_16_micro_1]
    decide

/-- C18 (amended): for every supported class and hash count `k` from 1 to 15 other
than `k = 1` with class 16 or 20, `bloom_filter_init` with `2 ^ 16` items on a newly
constructed filter returns 1 and the byte storage `usize = (m >> 3) + 1` is at most
`2 ^ 28`, where `m = ⌈2k / (2c + c ^ 2) * 2 ^ 16⌉` with `c = (2 ^ (-class)) ^ (1 / k)` in
exact real arithmetic; for `k = 1` with class 16 or 20 it returns 0. -/
theorem init_micro_succeeds (mem : Nat → Nat) (indet : bloom_filter) (pro k : Nat)
    (hpro : supported_class pro = true) (hk : 1 ≤ k) (hk15 : k ≤ 15) :
    plan_width pro (2 ^ 16) (k : Int) =
      ⌈2 * (k : ℝ) / (2 * (1 / (2 : ℝ) ^ pro) ^ (1 / (k : ℝ)) +
        ((1 / (2 : ℝ) ^ pro) ^ (1 / (k : ℝ))) ^ 2) * (2 : ℝ) ^ 16⌉₊ ∧
    (¬ (k = 1 ∧ (pro = 16 ∨ pro = 20)) →
      (bloom_filter_init plan_width mem (bloom_filter.bloom_filter indet) pro (2 ^ 16) k).1 = 1 ∧
      (bloom_filter_init plan_width mem (bloom_filter.bloom_filter indet) pro (2 ^ 16) k).2.usize
        = (plan_width pro (2 ^ 16) (k : Int) >>> 3) + 1 ∧
      (bloom_filter_init plan_width mem (bloom_filter.bloom_filter indet) pro (2 ^ 16) k).2.usize
        ≤ 2 ^ 28) ∧
    ((k = 1 ∧ (pro = 16 ∨ pro = 20)) →
      (bloom_filter_init plan_width mem (bloom_filter.bloom_filter indet) pro (2 ^ 16) k).1
        = 0) := by
  refine ⟨?_, ?_, ?_⟩
  · rw [plan_width_eq_ceil]
    norm_num
  · intro hex
    have hlt := plan_width_micro_lt pro k hpro hk hk15 hex
    have hmod : plan_width pro (2 ^ 16) (k : Int) % 2 ^ 64 = plan_width pro (2 ^ 16) (k : Int) :=
      Nat.mod_eq_of_lt (lt_trans hlt (by norm_num))
    have hbytes : (plan_width pro (2 ^ 16) (k : Int) >>> 3) + 1 ≤ 2 ^ 28 := by
      rw [Nat.shiftRight_eq_div_pow]
      omega
    rw [init_ok _ _ _ _ _ _ (new_filter_has_no_storage indet) (by norm_num)
      (by rw [hmod]; omega)]
    refine ⟨rfl, ?_, ?_⟩
    · show ((plan_width pro (2 ^ 16) (k : Int) % 2 ^ 64) >>> 3) + 1 = _
      rw [hmod]
    · show ((plan_width pro (2 ^ 16) (k : Int) % 2 ^ 64) >>> 3) + 1 ≤ 2 ^ 28
      rw [hmod]
      exact hbytes
  · rintro ⟨rfl, h16 | h20⟩
    · subst h16
      exact (init_zero_iff _ _ _ _ _ _).mpr
        (Or.inr (Or.inr (by
          show ((plan_width 16 (2 ^ 16) 1 % 2 ^ 64) >>> 3) + 1 > 2 ^ 28
          rw [plan_width_16_micro_1]; decide)))
    · subst h20
      exact (init_zero_iff _ _ _ _ _ _).mpr
        (Or.inr (Or.inr (by
          show ((plan_width 20 (2 ^ 16) 1 % 2 ^ 64) >>> 3) + 1 > 2 ^ 28
          rw [plan_width_20_micro_1]; decide)))

/-- Witness of `init_micro_succeeds`: class 6 and four hash functions. -/
theorem init_micro_succeeds_witness :
    supported_class 6 = true ∧
    (bloom_filter_init plan_width (fun _ => 0) (bloom_filter.bloom_filter ⟨none, 0, 0, 0, 0, 0⟩)
        6 (2 ^ 16) ((4 : Nat) : Int)).1 = 1 ∧
    (bloom_filter_init plan_width (fun _ => 0) (bloom_filter.bloom_filter ⟨none, 0, 0, 0, 0, 0⟩)
        6 (2 ^ 16) ((4 : Nat) : Int)).2.usize ≤ 2 ^ 28 :=
  ⟨by decide,
    ((init_micro_succeeds (fun _ => 0) ⟨none, 0, 0, 0, 0, 0⟩ 6 4 (by decide) (by decide)
      (by decide)).2.1 (by decide)).1,
    ((init_micro_succeeds (fun _ => 0) ⟨none, 0, 0, 0, 0, 0⟩ 6 4 (by decide) (by decide)
      (by decide)).2.1 (by decide)).2.2⟩


/-! ## Filters the code builds -/

theorem set_loop_same_shape (k1 k2 : Nat) (is : List Nat) :
    ∀ bf bf' : bloom_filter, set_loop k1 k2 bf is = some bf' → same_shape bf bf' := by
  induction is with
  | nil =>
    intro bf bf' h
    simp only [set_loop, Option.some.injEq] at h
    subst h
    exact same_shape_refl bf
  | cons i is ih =>
    intro bf bf' h
    simp only [set_loop] at h
    cases hstep : set_step k1 k2 bf i with
    | none => rw [hstep] at h; simp at h
    | some bf1 =>
      rw [hstep] at h
      have hshape1 : same_shape bf bf1 := by
        unfold set_step at hstep
        cases hv : hash_value bf k1 k2 i with
        | none => rw [hv] at hstep; simp at hstep
        | some hv' =>
          rw [hv] at hstep
          exact set_bit_same_shape hstep
      exact same_shape_trans hshape1 (ih bf1 bf' h)

/-- An insert changes neither `uhashmax` nor `hnum`, on any object. -/
theorem set_same_config {bf bf' : bloom_filter} {r : Int} {str : List Int}
    (h : bloom_filter_set bf str = some (r, bf')) :
    bf'.uhashmax = bf.uhashmax ∧ bf'.hnum = bf.hnum := by
  by_cases hfull : bf.ucount ≥ bf.uitemmax
  · rw [set_rejected hfull] at h
    simp only [Option.some.injEq, Prod.mk.injEq] at h
    rw [← h.2]
    exact ⟨rfl, rfl⟩
  · rw [set_unfold_accept hfull] at h
    cases hloop : set_loop (BKDRHash str) (DJBHash str)
        { bf with ucount := (bf.ucount + 1) % 2 ^ 64 } (List.range bf.hnum.toNat) with
    | none => rw [hloop] at h; simp at h
    | some bf2 =>
      rw [hloop] at h
      simp only [Option.some.injEq, Prod.mk.injEq] at h
      rw [← h.2]
      have hshape := set_loop_same_shape _ _ _ _ _ hloop
      exact ⟨hshape.2.2.1, hshape.2.2.2.2.1⟩

theorem set_all_same_config (strs : List (List Int)) :
    ∀ (bf bf' : bloom_filter) (rs : List Int), set_all bf strs = some (rs, bf') →
      bf'.uhashmax = bf.uhashmax ∧ bf'.hnum = bf.hnum := by
  induction strs with
  | nil =>
    intro bf bf' rs h
    simp only [set_all, Option.some.injEq, Prod.mk.injEq] at h
    rw [← h.2]
    exact ⟨rfl, rfl⟩
  | cons str strs ih =>
    intro bf bf' rs h
    simp only [set_all] at h
    cases hset : bloom_filter_set bf str with
    | none => rw [hset] at h; simp at h
    | some res =>
      obtain ⟨r, bf1⟩ := res
      rw [hset] at h
      simp only at h
      cases hall : set_all bf1 strs with
      | none => rw [hall] at h; simp at h
      | some res2 =>
        obtain ⟨rs2, bf2⟩ := res2
        rw [hall] at h
        simp only [Option.some.injEq, Prod.mk.injEq] at h
        rw [← h.2]
        have h1 := set_same_config hset
        have h2 := ih bf1 bf2 rs2 hall
        exact ⟨h2.1.trans h1.1, h2.2.trans h1.2⟩

/-- A ready filter the code builds has at least one hash function: `hnum` and
`uhashmax` are written together by `bloom_filter_init` and by nothing else, and a
hash count that is not positive gives `uhashmax = 0`. -/
theorem built_ready_hnum {plan : Nat → Nat → Int → Nat} (hplan : width_zero_without_hashes plan)
    {bf : bloom_filter} (hb : built plan bf) (hr : ready bf = true) : 1 ≤ bf.hnum := by
  obtain ⟨mem, bf0, pro, nmax, hash, strs, rs, hok, hall⟩ := hb
  obtain ⟨h1, h2, h3⟩ := init_one_passed _ _ _ _ _ _ hok
  obtain ⟨hm, hn⟩ := set_all_same_config strs _ _ rs hall
  rw [init_ok _ _ _ _ _ _ h1 h2 h3] at hm hn
  have hm' : bf.uhashmax = plan pro nmax hash % 2 ^ 64 := hm
  have hn' : bf.hnum = hash := hn
  obtain ⟨_, _, _, hpos⟩ := (ready_iff bf).mp hr
  by_contra hlt
  have := hplan pro nmax hash (by omega)
  omega

/-- The width of exact real arithmetic has that sign. -/
theorem plan_width_without_hashes : width_zero_without_hashes plan_width := by
  intro pro nmax hash hh
  have hzero : plan_width pro nmax hash = 0 := by
    unfold plan_width
    rw [Nat.ceil_eq_zero, plan_scale_eq]
    have hk : (hash : ℝ) ≤ 0 := by exact_mod_cast hh
    have hc : 0 < (1 / (2 : ℝ) ^ pro) ^ (1 / (hash : ℝ)) :=
      Real.rpow_pos_of_pos (by positivity) _
    generalize (1 / (2 : ℝ) ^ pro) ^ (1 / (hash : ℝ)) = c at hc
    have hs : ((hash : ℝ) + hash) / (c + c + c * c) ≤ 0 :=
      div_nonpos_of_nonpos_of_nonneg (by linarith) (by positivity)
    exact mul_nonpos_of_nonpos_of_nonneg hs (Nat.cast_nonneg nmax)
  rw [hzero, Nat.zero_mod]

/-- A number whose `k`-th power is at least `1 / 2 ^ pro` is at least the ratio. -/
theorem plan_ratio_le (pro k : Nat) (hk : 1 ≤ k) (z : ℝ) (hz0 : 0 ≤ z)
    (hz : 1 / 2 ^ pro ≤ z ^ k) : (1 / (2 : ℝ) ^ pro) ^ (1 / (k : ℝ)) ≤ z := by
  obtain ⟨_, _, hck⟩ := plan_ratio_basic pro k hk
  by_contra hlt
  have hlt' : z < (1 / (2 : ℝ) ^ pro) ^ (1 / (k : ℝ)) := lt_of_not_ge hlt
  have hpow := pow_lt_pow_left₀ hlt' hz0 (by omega : k ≠ 0)
  rw [hck] at hpow
  linarith

theorem plan_width_3_4_3 : plan_width 3 4 3 = 20 := by
  have hlow := le_plan_ratio 3 3 (by norm_num) (1 / 2) (by norm_num)
  have hupp := plan_ratio_le 3 3 (by norm_num) (1 / 2) (by norm_num) (by norm_num)
  have hc : (1 / (2 : ℝ) ^ 3) ^ (1 / ((3 : Nat) : ℝ)) = 1 / 2 := le_antisymm hupp hlow
  have hs := plan_scale_eq 3 ((3 : Nat) : Int)
  simp only [Int.cast_natCast] at hs
  rw [hc] at hs
  have hw : plan_width 3 4 ((3 : Nat) : Int) = 20 := by
    unfold plan_width
    rw [hs, Nat.ceil_eq_iff (by norm_num)]
    norm_num
  exact hw

/-- The filter used in the examples below: `bloom_filter_init(3, 4, 3)` on a newly
constructed object with zero memory gives 20 bit positions in 3 bytes. -/
theorem init_3_4_3 :
    bloom_filter_init plan_width (fun _ => 0) (bloom_filter.bloom_filter ⟨none, 0, 0, 0, 0, 0⟩)
        3 4 3 = (1, ⟨some [0, 0, 0], 0, 3, 20, 4, 3⟩) := by
  rw [init_ok _ _ _ _ _ _ (by decide) (by decide) (by rw [plan_width_3_4_3]; decide)]
  rw [plan_width_3_4_3]
  decide

theorem built_init_3_4_3 : built plan_width ⟨some [0, 0, 0], 0, 3, 20, 4, 3⟩ :=
  ⟨fun _ => 0, bloom_filter.bloom_filter ⟨none, 0, 0, 0, 0, 0⟩, 3, 4, 3, [], [],
    by rw [init_3_4_3], by rw [init_3_4_3]; rfl⟩

/-! ## Claims on the filters the code builds -/

/-- C1: no false negatives. For every ready filter the code builds (any width
computation with the sign of `width_zero_without_hashes`, any successful
`bloom_filter_init`, any inserts before), every sequence `pre` of inserts, every key and
every sequence `post` of further inserts, all calls return normally, and if the insert
of the key returned 1 then `bloom_filter_get` on the key returns 1 in the state after
`post`. -/
theorem no_false_negatives (plan : Nat → Nat → Int → Nat)
    (hplan : width_zero_without_hashes plan) (bf : bloom_filter) (hb : built plan bf)
    (hr : ready bf = true) (pre post : List (List Int)) (key : List Int) :
    ∃ rs1 bf1, set_all bf pre = some (rs1, bf1) ∧
      ∃ r bf2, bloom_filter_set bf1 key = some (r, bf2) ∧
        ∃ rs3 bf3, set_all bf2 post = some (rs3, bf3) ∧
          (r = 1 → bloom_filter_get bf3 key = some 1) := by
  have hn := built_ready_hnum hplan hb hr
  exact inserted_key_is_found bf pre post key hr (by omega)

/-- Witness of `no_false_negatives`: the filter of `bloom_filter_init(3, 4, 3)` and the
keys "b", "a", "c". -/
theorem no_false_negatives_witness :
    width_zero_without_hashes plan_width ∧ built plan_width ⟨some [0, 0, 0], 0, 3, 20, 4, 3⟩ ∧
    ready ⟨some [0, 0, 0], 0, 3, 20, 4, 3⟩ = true ∧
    ∃ rs1 bf1, set_all ⟨some [0, 0, 0], 0, 3, 20, 4, 3⟩ [[98]] = some (rs1, bf1) ∧
      ∃ r bf2, bloom_filter_set bf1 [97] = some (r, bf2) ∧
        ∃ rs3 bf3, set_all bf2 [[99]] = some (rs3, bf3) ∧
          (r = 1 → bloom_filter_get bf3 [97] = some 1) :=
  ⟨plan_width_without_hashes, built_init_3_4_3, by decide,
    no_false_negatives plan_width plan_width_without_hashes ⟨some [0, 0, 0], 0, 3, 20, 4, 3⟩
      built_init_3_4_3 (by decide) [[98]] [[99]] [97]⟩

set_option maxRecDepth 100000 in
/-- C4 (as stated, refuted): the position is reduced mod `2 ^ 64` before `% uhashmax`.
On the filter of `bloom_filter_init(3, 4, 3)` (20 positions) the insert of the key
"zzzzzzzzzzzz" sets the bits 6, 15 and 4, and `bloom_filter_get` on that key returns 1;
but `(BKDRHash(key) + i * DJBHash(key)) mod 20` without the reduction is 11 for
`i = 1`, and bit 11 is not set. -/
theorem get_position_wraps_at_64_bits :
    bloom_filter_init plan_width (fun _ => 0) (bloom_filter.bloom_filter ⟨none, 0, 0, 0, 0, 0⟩)
        3 4 3 = (1, ⟨some [0, 0, 0], 0, 3, 20, 4, 3⟩) ∧
    bloom_filter_set ⟨some [0, 0, 0], 0, 3, 20, 4, 3⟩ (List.replicate 12 122) =
      some (1, ⟨some [80, 128, 0], 1, 3, 20, 4, 3⟩) ∧
    bloom_filter_get ⟨some [80, 128, 0], 1, 3, 20, 4, 3⟩ (List.replicate 12 122) = some 1 ∧
    ¬ (∀ i : Nat, (i : Int) < 3 →
        bit_is_set ⟨some [80, 128, 0], 1, 3, 20, 4, 3⟩
          ((BKDRHash (List.replicate 12 122) + i * DJBHash (List.replicate 12 122)) % 20)
            = true) := by
  refine ⟨init_3_4_3, by decide, by decide, ?_⟩
  intro h
  exact absurd (h 1 (by decide)) (by decide)

/-- C4 (amended): on every ready filter the code builds, `bloom_filter_get` returns
normally with 1 or 0, and it returns 1 if and only if for every `i` with
`0 ≤ i < hnum` the bit at position
`((BKDRHash(key) + i * DJBHash(key)) mod 2 ^ 64) mod uhashmax` is set. -/
theorem get_iff_all_positions_set (plan : Nat → Nat → Int → Nat)
    (hplan : width_zero_without_hashes plan) (bf : bloom_filter) (hb : built plan bf)
    (hr : ready bf = true) (key : List Int) :
    (bloom_filter_get bf key = some 1 ∨ bloom_filter_get bf key = some 0) ∧
      (bloom_filter_get bf key = some 1 ↔
        ∀ i : Nat, (i : Int) < bf.hnum →
          bit_is_set bf ((BKDRHash key + i * DJBHash key) % 2 ^ 64 % bf.uhashmax) = true) := by
  have hn := built_ready_hnum hplan hb hr
  obtain ⟨r, hg, h01, hiff⟩ := get_ready hr key
  rw [hg]
  constructor
  · rcases h01 with h | h
    · right; rw [h]
    · left; rw [h]
  · simp only [Option.some.injEq]
    rw [hiff]
    constructor
    · rintro ⟨_, hall⟩
      exact fun i hi => hall i (by omega)
    · intro hall
      exact ⟨by omega, fun i hi => hall i (by omega)⟩

set_option maxRecDepth 100000 in
/-- Witness of `get_iff_all_positions_set`: the filter of `bloom_filter_init(3, 4, 3)`
after the insert of "zzzzzzzzzzzz", queried with that key. -/
theorem get_iff_all_positions_set_witness :
    ready ⟨some [80, 128, 0], 1, 3, 20, 4, 3⟩ = true ∧
    (bloom_filter_get ⟨some [80, 128, 0], 1, 3, 20, 4, 3⟩ (List.replicate 12 122) = some 1 ↔
      ∀ i : Nat, (i : Int) < 3 →
        bit_is_set ⟨some [80, 128, 0], 1, 3, 20, 4, 3⟩
          ((BKDRHash (List.replicate 12 122) + i * DJBHash (List.replicate 12 122))
            % 2 ^ 64 % 20) = true) :=
  ⟨by decide,
    (get_iff_all_positions_set plan_width plan_width_without_hashes
      ⟨some [80, 128, 0], 1, 3, 20, 4, 3⟩
      ⟨fun _ => 0, bloom_filter.bloom_filter ⟨none, 0, 0, 0, 0, 0⟩, 3, 4, 3,
        [List.replicate 12 122], [1], by rw [init_3_4_3], by rw [init_3_4_3]; decide⟩
      (by decide) (List.replicate 12 122)).2⟩

set_option maxRecDepth 100000 in
/-- C12 (as stated, refuted): the position is reduced mod `2 ^ 64` before
`% uhashmax`. On the ready filter of `bloom_filter_init(3, 4, 3)` (20 positions, no
bit set, `ucount = 0 < 4`) the insert of the key "zzzzzzzzzzzz" returns 1 and sets the
bits 6, 15 and 4; `(BKDRHash(key) + i * DJBHash(key)) mod 20` without the reduction is
11 for `i = 1`, and bit 11 is not set afterwards. -/
theorem insert_position_wraps_at_64_bits :
    bloom_filter_init plan_width (fun _ => 0) (bloom_filter.bloom_filter ⟨none, 0, 0, 0, 0, 0⟩)
        3 4 3 = (1, ⟨some [0, 0, 0], 0, 3, 20, 4, 3⟩) ∧
    ready ⟨some [0, 0, 0], 0, 3, 20, 4, 3⟩ = true ∧
    bloom_filter_set ⟨some [0, 0, 0], 0, 3, 20, 4, 3⟩ (List.replicate 12 122) =
      some (1, ⟨some [80, 128, 0], 1, 3, 20, 4, 3⟩) ∧
    ¬ (∀ j, bit_is_set ⟨some [80, 128, 0], 1, 3, 20, 4, 3⟩ j = true ↔
        (bit_is_set ⟨some [0, 0, 0], 0, 3, 20, 4, 3⟩ j = true ∨
          ∃ i : Nat, (i : Int) < 3 ∧
            (BKDRHash (List.replicate 12 122) + i * DJBHash (List.replicate 12 122)) % 20
              = j)) := by
  refine ⟨init_3_4_3, by decide, by decide, ?_⟩
  intro h
  have hset : bit_is_set ⟨some [80, 128, 0], 1, 3, 20, 4, 3⟩ 11 = true :=
    (h 11).mpr (Or.inr ⟨1, by decide, by decide⟩)
  exact absurd hset (by decide)

/-! ## The stored width against the hash count -/

/-- The scale is at least `2k / (2z + z ^ 2)` for every `z` above the ratio. -/
theorem plan_scale_ge (pro k : Nat) (hk : 1 ≤ k) (z : ℝ) (hz0 : 0 < z)
    (hz : 1 / 2 ^ pro ≤ z ^ k) :
    2 * (k : ℝ) / (2 * z + z ^ 2) ≤ plan_scale pro (k : Int) := by
  have hc := plan_ratio_le pro k hk z hz0.le hz
  obtain ⟨hc0, _, _⟩ := plan_ratio_basic pro k hk
  have hs := plan_scale_eq pro (k : Int)
  simp only [Int.cast_natCast] at hs
  rw [hs]
  generalize (1 / (2 : ℝ) ^ pro) ^ (1 / (k : ℝ)) = c at hc hc0
  have hden : c + c + c * c ≤ 2 * z + z ^ 2 := by nlinarith
  calc 2 * (k : ℝ) / (2 * z + z ^ 2) ≤ 2 * (k : ℝ) / (c + c + c * c) :=
        div_le_div_of_nonneg_left (by positivity) (by positivity) hden
    _ = ((k : ℝ) + k) / (c + c + c * c) := by ring

/-- The scale exceeds `k - 1` when `(k - 1) (2z + z ^ 2) < 2k` for such a `z`. -/
theorem pred_lt_plan_scale (pro k : Nat) (hk : 1 ≤ k) (z : ℝ) (hz0 : 0 < z)
    (hz : 1 / 2 ^ pro ≤ z ^ k) (hlin : ((k : ℝ) - 1) * (2 * z + z ^ 2) < 2 * k) :
    (k : ℝ) - 1 < plan_scale pro (k : Int) := by
  have hge := plan_scale_ge pro k hk z hz0 hz
  have hlt : (k : ℝ) - 1 < 2 * (k : ℝ) / (2 * z + z ^ 2) := by
    rw [lt_div_iff₀ (by positivity)]
    exact hlin
  linarith

/-- With one item the width is at least the hash count exactly when the scale exceeds
`k - 1`. -/
theorem hash_le_plan_width_one_item (pro k : Nat) (hk : 1 ≤ k) :
    k ≤ plan_width pro 1 (k : Int) ↔ (k : ℝ) - 1 < plan_scale pro (k : Int) := by
  unfold plan_width
  rw [Nat.cast_one, mul_one]
  have hpred : k ≤ ⌈plan_scale pro (k : Int)⌉₊ ↔ k - 1 < ⌈plan_scale pro (k : Int)⌉₊ := by
    omega
  rw [hpred, Nat.lt_ceil, Nat.cast_sub hk, Nat.cast_one]

theorem pred_lt_plan_scale_small (pro k : Nat) (hk : 1 ≤ k) (hk2 : k ≤ 2) :
    (k : ℝ) - 1 < plan_scale pro (k : Int) := by
  have hk2' : (k : ℝ) ≤ 2 := by exact_mod_cast hk2
  exact pred_lt_plan_scale pro k hk 1 (by norm_num)
    (by
      rw [one_pow, div_le_one (by positivity)]
      exact one_le_pow₀ (by norm_num))
    (by nlinarith)

/-- For the supported classes and 1 to 15 hash functions the scale exceeds `k - 1`
except for class 3 with 10 hash functions or more. -/
theorem pred_lt_plan_scale_supported (pro k : Nat) (hpro : supported_class pro = true)
    (hk : 1 ≤ k) (hk15 : k ≤ 15) :
    (k : ℝ) - 1 < plan_scale pro (k : Int) ↔ ¬ (pro = 3 ∧ 10 ≤ k) := by
  have hcls : pro = 3 ∨ pro = 6 ∨ pro = 10 ∨ pro = 13 ∨ pro = 16 ∨ pro = 20 := by
    unfold supported_class at hpro
    simpa only [Bool.or_eq_true, beq_iff_eq, or_assoc] using hpro
  have hk1' : (1 : ℝ) ≤ k := by exact_mod_cast hk
  have hk15' : (k : ℝ) ≤ 15 := by exact_mod_cast hk15
  by_cases hbad : pro = 3 ∧ 10 ≤ k
  · obtain ⟨rfl, hk10⟩ := hbad
    have hk10' : (10 : ℝ) ≤ k := by exact_mod_cast hk10
    have hx : ((4 : ℝ) / 5) ^ k ≤ 1 / 2 ^ 3 :=
      le_trans (pow_le_pow_of_le_one (by norm_num) (by norm_num) hk10) (by norm_num)
    have hle := plan_scale_le 3 k hk (4 / 5) (by norm_num) hx
    have hval : 2 * (k : ℝ) / (2 * (4 / 5) + (4 / 5) ^ 2) = k * (25 / 28) := by
      norm_num
      ring
    rw [hval] at hle
    constructor
    · intro hlt
      exfalso
      linarith
    · intro hnot
      exact absurd ⟨rfl, hk10⟩ hnot
  · refine ⟨fun _ => hbad, fun _ => ?_⟩
    by_cases h3 : pro = 3
    · subst h3
      have hk9 : k ≤ 9 := by
        by_contra hgt
        exact hbad ⟨rfl, by omega⟩
      have hk9' : (k : ℝ) ≤ 9 := by exact_mod_cast hk9
      have hz : 1 / 2 ^ 3 ≤ ((397 : ℝ) / 500) ^ k :=
        le_trans (by norm_num) (pow_le_pow_of_le_one (by norm_num) (by norm_num) hk9)
      exact pred_lt_plan_scale 3 k hk (397 / 500) (by norm_num) hz (by nlinarith)
    · have hpro6 : 6 ≤ pro := by omega
      have hz : 1 / 2 ^ pro ≤ ((19 : ℝ) / 25) ^ k := by
        have h64 : (1 : ℝ) / 2 ^ pro ≤ 1 / 2 ^ 6 := by
          rw [one_div, one_div]
          exact inv_anti₀ (by positivity) (pow_le_pow_right₀ (by norm_num) hpro6)
        have h15 : (1 : ℝ) / 2 ^ 6 ≤ ((19 : ℝ) / 25) ^ 15 := by norm_num
        exact le_trans h64 (le_trans h15
          (pow_le_pow_of_le_one (by norm_num) (by norm_num) hk15))
      exact pred_lt_plan_scale pro k hk (19 / 25) (by norm_num) hz (by nlinarith)

/-- The width is at most `N` when `(k / x) * n ≤ N` for a positive `x` below the
ratio. -/
theorem plan_width_le_of_ratio (pro n k N : Nat) (hk : 1 ≤ k) (x : ℝ) (hx0 : 0 < x)
    (hx : x ^ k ≤ 1 / 2 ^ pro) (hN : (k : ℝ) / x * n ≤ N) :
    plan_width pro n (k : Int) ≤ N := by
  apply plan_width_le pro n k N hk x hx0 hx
  have hk0 : (0 : ℝ) < k := by exact_mod_cast hk
  have hle : 2 * (k : ℝ) / (2 * x + x ^ 2) ≤ (k : ℝ) / x := by
    rw [div_le_div_iff₀ (by positivity) hx0]
    nlinarith [mul_pos hk0 (mul_pos hx0 hx0)]
  exact le_trans (mul_le_mul_of_nonneg_right hle (Nat.cast_nonneg n)) hN

/-- The width fits the `uint64_t` it is stored in: for a class whose shift
`1 << pro` is defined, a positive `int` hash count and at most `2 ^ 24` items. -/
theorem plan_width_fits (pro n k : Nat) (hpro : pro ≤ 30) (hk : 1 ≤ k) (hk31 : k < 2 ^ 31)
    (hn : n ≤ 2 ^ 24) : plan_width pro n (k : Int) < 2 ^ 64 := by
  have hk31' : (k : ℝ) ≤ 2 ^ 31 := by exact_mod_cast hk31.le
  have hn' : (n : ℝ) ≤ 2 ^ 24 := by exact_mod_cast hn
  have hk0 : (0 : ℝ) ≤ k := Nat.cast_nonneg k
  have hn0 : (0 : ℝ) ≤ n := Nat.cast_nonneg n
  by_cases hk30 : 30 ≤ k
  · have hx : ((1 : ℝ) / 2) ^ k ≤ 1 / 2 ^ pro := by
      rw [one_div, one_div, inv_pow]
      exact inv_anti₀ (by positivity) (pow_le_pow_right₀ (by norm_num) (by omega))
    have h := plan_width_le_of_ratio pro n k (2 ^ 56) hk (1 / 2) (by norm_num) hx
      (by
        have hprod : (k : ℝ) * n ≤ 2 ^ 31 * 2 ^ 24 := mul_le_mul hk31' hn' hn0 (by positivity)
        have : (k : ℝ) / (1 / 2) * n = 2 * ((k : ℝ) * n) := by ring
        rw [this]
        push_cast
        nlinarith)
    exact lt_of_le_of_lt h (by norm_num)
  · have hk30' : (k : ℝ) ≤ 30 := by
      have : k ≤ 30 := by omega
      exact_mod_cast this
    have hx : (((1 : ℝ) / 2) ^ 30) ^ k ≤ 1 / 2 ^ pro := by
      rw [← pow_mul, one_div, one_div, inv_pow]
      exact inv_anti₀ (by positivity)
        (pow_le_pow_right₀ (by norm_num) (by nlinarith))
    have h := plan_width_le_of_ratio pro n k (30 * 2 ^ 30 * 2 ^ 24) hk ((1 / 2) ^ 30)
      (by positivity) hx
      (by
        have hprod : (k : ℝ) * n ≤ 30 * 2 ^ 24 := mul_le_mul hk30' hn' hn0 (by positivity)
        have : (k : ℝ) / (1 / 2) ^ 30 * n = 2 ^ 30 * ((k : ℝ) * n) := by
          rw [one_div, inv_pow, div_inv_eq_mul]
          ring
        rw [this]
        push_cast
        nlinarith)
    exact lt_of_le_of_lt h (by norm_num)

/-- C14 (amended): after a successful `bloom_filter_init` with a positive hash count
(an `int`, class at most 30, width `m` of exact real arithmetic) the filter stores
`hnum = hash` and `uhashmax = m`, and `hnum ≤ uhashmax` holds whenever `nmax ≥ 2`.
For `nmax = 1` it holds exactly when the scale `s` exceeds `hash - 1`: always for
`hash ≤ 2`, and for the supported classes with 1 to 15 hash functions except class 3
with 10 or more. For `nmax = 0` the width is 0 and it fails. -/
theorem init_width_at_least_hash_count (mem : Nat → Nat) (bf bf' : bloom_filter)
    (pro nmax : Nat) (hash : Int) (hpro : pro ≤ 30) (hpos : 1 ≤ hash) (hint : hash < 2 ^ 31)
    (hinit : bloom_filter_init plan_width mem bf pro nmax hash = (1, bf')) :
    bf'.hnum = hash ∧ bf'.uhashmax = plan_width pro nmax hash ∧
    (2 ≤ nmax → bf'.hnum ≤ (bf'.uhashmax : Int)) ∧
    (nmax = 1 →
      (bf'.hnum ≤ (bf'.uhashmax : Int) ↔ (hash : ℝ) - 1 < plan_scale pro hash)) ∧
    (nmax = 1 → hash ≤ 2 → bf'.hnum ≤ (bf'.uhashmax : Int)) ∧
    (nmax = 1 → supported_class pro = true → hash ≤ 15 →
      (bf'.hnum ≤ (bf'.uhashmax : Int) ↔ ¬ (pro = 3 ∧ 10 ≤ hash))) ∧
    (nmax = 0 → bf'.uhashmax = 0 ∧ (bf'.uhashmax : Int) < bf'.hnum) := by
  obtain ⟨k, rfl⟩ := Int.eq_ofNat_of_zero_le (by omega : 0 ≤ hash)
  have hk : 1 ≤ k := by exact_mod_cast hpos
  have hk31 : k < 2 ^ 31 := by exact_mod_cast hint
  have hok : (bloom_filter_init plan_width mem bf pro nmax (k : Int)).1 = 1 := by rw [hinit]
  obtain ⟨h1, h2, h3⟩ := init_one_passed _ _ _ _ _ _ hok
  have hfit := plan_width_fits pro nmax k hpro hk hk31 (by omega)
  rw [init_ok _ _ _ _ _ _ h1 h2 h3] at hinit
  simp only [Prod.mk.injEq, true_and] at hinit
  subst hinit
  have hmod : plan_width pro nmax (k : Int) % 2 ^ 64 = plan_width pro nmax (k : Int) :=
    Nat.mod_eq_of_lt hfit
  simp only [hmod]
  refine ⟨trivial, trivial, ?_, ?_, ?_, ?_, ?_⟩
  · intro hn
    exact hash_le_plan_width pro nmax (k : Int) hpos hn
  · rintro rfl
    rw [Nat.cast_le, hash_le_plan_width_one_item pro k hk]
    simp only [Int.cast_natCast]
  · rintro rfl hk2
    rw [Nat.cast_le, hash_le_plan_width_one_item pro k hk]
    exact pred_lt_plan_scale_small pro k hk (by exact_mod_cast hk2)
  · rintro rfl hsup hk15
    have hk15' : k ≤ 15 := by exact_mod_cast hk15
    rw [Nat.cast_le, hash_le_plan_width_one_item pro k hk,
      pred_lt_plan_scale_supported pro k hsup hk hk15']
    constructor
    · rintro hnot ⟨h3', h10⟩
      exact hnot ⟨h3', by exact_mod_cast h10⟩
    · rintro hnot ⟨h3', h10⟩
      exact hnot ⟨h3', by exact_mod_cast h10⟩
  · rintro rfl
    rw [plan_width_zero_items]
    exact ⟨rfl, by
      show ((0 : Nat) : Int) < (k : Int)
      exact_mod_cast hk⟩

/-- Witness of `init_width_at_least_hash_count`: `bloom_filter_init(3, 4, 3)` stores
the width 20 for 3 hash functions. -/
theorem init_width_at_least_hash_count_witness :
    bloom_filter_init plan_width (fun _ => 0) (bloom_filter.bloom_filter ⟨none, 0, 0, 0, 0, 0⟩)
        3 4 3 = (1, ⟨some [0, 0, 0], 0, 3, 20, 4, 3⟩) ∧
    (3 : Int) ≤ ((20 : Nat) : Int) :=
  ⟨init_3_4_3,
    (init_width_at_least_hash_count (fun _ => 0)
      (bloom_filter.bloom_filter ⟨none, 0, 0, 0, 0, 0⟩) ⟨some [0, 0, 0], 0, 3, 20, 4, 3⟩
      3 4 3 (by norm_num) (by norm_num) (by norm_num) init_3_4_3).2.2.1 (by norm_num)⟩

end BloomFilter
